import Mathlib

/-!
Verification of the outline tree editor (src/src/components/App.tsx and the
earlier iteration in src/unnamed/part_000).

The program keeps a document `Data = { version, tree }` where `tree` is a
recursive record `Tree = { id, text, children? }`; a reducer applies the
commands TEXT_CHANGED / MOVE_UP / MOVE_DOWN / ADDED / REMOVED by running a
recursive locate-and-transform traversal (`updateTree`) over an immer draft
of the snapshot, and a Copy action serializes the snapshot with
`JSON.stringify(data, null, 2)`.

The embedding below renders the immer draft mutation as pure state passing:

* `Tree.children` is `Option (List Tree)`, distinguishing an absent
  `children` field from an empty array exactly as the JavaScript does.
* `updateTree` embeds the reducer's traversal (App.tsx lines 116-131)
  specialized to transforms that mutate only the matched node itself, which
  is how the source uses it for TEXT_CHANGED; the traversal recurses into
  the children that the matched node has after the transform ran, and every
  transform the source passes leaves `children` untouched, so the embedding
  recurses into the original children (theorems about a general transform
  carry that as the hypothesis `hf`).
* The four structural commands mutate `parent.children` from inside the
  callback.  `applyAt op target` embeds that: at every node whose child list
  contains the target id, the parent-level list transform `op` runs.  In the
  draft semantics the callback fires while the parent's old child array is
  being walked; under the document invariant (all ids unique) at most one
  node in the whole tree matches and the callback commutes with the
  remaining (identity) recursion, so the embedding recurses first and then
  applies `op` to the (unchanged) child list.
* `generateId()` reads `Math.random()` and `Date.now()`; the value of each
  call is modelled as an explicitly supplied string (`newId` / a `supply`
  stream for command sequences).
-/

namespace Outline

/-- Embeds `type Tree = { id: string; text: string; children?: Tree[] }`
(App.tsx line 13).  `children = none` is an absent field, `some []` an
empty array. -/
inductive Tree where
  | mk (id : String) (text : String) (children : Option (List Tree)) : Tree

/-- The `id` field of a node. -/
def Tree.id : Tree → String
  | .mk i _ _ => i

/-- The `text` field of a node. -/
def Tree.text : Tree → String
  | .mk _ s _ => s

/-- The `children` field of a node. -/
def Tree.children : Tree → Option (List Tree)
  | .mk _ _ cs => cs

@[simp] theorem Tree.id_mk (i s : String) (cs : Option (List Tree)) :
    (Tree.mk i s cs).id = i := rfl

@[simp] theorem Tree.text_mk (i s : String) (cs : Option (List Tree)) :
    (Tree.mk i s cs).text = s := rfl

@[simp] theorem Tree.children_mk (i s : String) (cs : Option (List Tree)) :
    (Tree.mk i s cs).children = cs := rfl

/-- The child list of a node; `(tree.children || [])` in the view code. -/
def Tree.childList (t : Tree) : List Tree :=
  match t.children with
  | none => []
  | some cs => cs

@[simp] theorem Tree.childList_mk_none (i s : String) :
    (Tree.mk i s none).childList = [] := rfl

@[simp] theorem Tree.childList_mk_some (i s : String) (cs : List Tree) :
    (Tree.mk i s (some cs)).childList = cs := rfl

/-- Default node used to express JavaScript array indexing `children[i]`
in total Lean functions; every use is guarded by an index bound. -/
def dTree : Tree := Tree.mk "" "" none

instance : Inhabited Tree := ⟨dTree⟩

/-- Embeds `type Data = { version: Version; tree: Tree }` (App.tsx line 15). -/
structure Data where
  version : String
  tree : Tree

/-- Embeds `createTree` (App.tsx lines 21-27); the `generateId()` result is
passed in explicitly as `newId`. -/
def createTree (newId : String) (text : String) (children : Option (List Tree)) : Tree :=
  Tree.mk newId text children

/-- Embeds `initialData` (App.tsx lines 29-40); the four `generateId()`
results are passed in explicitly. -/
def initialData (i0 i1 i2 i3 : String) : Data :=
  { version := "0.1.0"
    tree := Tree.mk i0 "parent" (some
      [Tree.mk i1 "child-1" none, Tree.mk i2 "child-2" none, Tree.mk i3 "child-3" none]) }

mutual

/-- Embeds `updateTree` (App.tsx lines 116-131) for transforms that mutate
only the matched node, as TEXT_CHANGED does: when the node's id matches the
target the transform is applied, and the traversal then recurses into every
child.  The source recurses into the children the node has after the
transform ran; every transform in the repository leaves `children`
untouched, so the embedding recurses into the original children. -/
def updateTree (target : String) (f : Tree → Tree) : Tree → Tree
  | Tree.mk i s cs =>
    let t' := if i == target then f (Tree.mk i s cs) else Tree.mk i s cs
    match cs with
    | none => t'
    | some l => Tree.mk t'.id t'.text (some (updateTreeL target f l))

/-- The `tree.children.forEach` loop of `updateTree`. -/
def updateTreeL (target : String) (f : Tree → Tree) : List Tree → List Tree
  | [] => []
  | c :: cs => updateTree target f c :: updateTreeL target f cs

end

mutual

/-- Embeds `updateTreeInner` (src/unnamed/part_000 lines 57-76): when the
node's id matches the target it returns `updateFn(tree)` at once, without
recursing into that node's children; otherwise it rebuilds the node with
every child updated. -/
def updateTreeInner (target : String) (f : Tree → Tree) : Tree → Tree
  | Tree.mk i s cs =>
    if i == target then f (Tree.mk i s cs)
    else
      match cs with
      | none => Tree.mk i s none
      | some l => Tree.mk i s (some (updateTreeInnerL target f l))

/-- The `tree.children.map` of `updateTreeInner`. -/
def updateTreeInnerL (target : String) (f : Tree → Tree) : List Tree → List Tree
  | [] => []
  | c :: cs => updateTreeInner target f c :: updateTreeInnerL target f cs

end

/-- Embeds the part_000 wrapper `updateTree(tree, updateFn)` (lines 53-55),
which starts `updateTreeInner` with the root's own id as the target. -/
def updateTreeP0 (f : Tree → Tree) (t : Tree) : Tree :=
  updateTreeInner t.id f t

/-- Embeds the MOVE_UP callback body (App.tsx lines 185-195) as a transform
of the parent's child list.  The callback only fires at the matched child,
whose id equals the target, so `children.findIndex(e => e.id === tree.id)`
is a search for the target id; `index <= 0` (not found, or already first)
returns the list unchanged, otherwise the matched child is swapped with its
preceding sibling.  `tree` in the source is the first child carrying the
target id whenever ids are unique, hence `cs.getD index dTree` here. -/
def moveUpOp (target : String) (cs : List Tree) : List Tree :=
  match List.findIdx? (fun e => e.id == target) cs with
  | none => cs
  | some 0 => cs
  | some (n + 1) => cs.take n ++ [cs.getD (n + 1) dTree, cs.getD n dTree] ++ cs.drop (n + 2)

/-- Embeds the MOVE_DOWN callback body (App.tsx lines 211-221): not found or
already last is a no-op, otherwise the matched child is swapped with its
following sibling. -/
def moveDownOp (target : String) (cs : List Tree) : List Tree :=
  match List.findIdx? (fun e => e.id == target) cs with
  | none => cs
  | some n =>
    if n = cs.length - 1 then cs
    else cs.take n ++ [cs.getD (n + 1) dTree, cs.getD n dTree] ++ cs.drop (n + 2)

/-- Embeds the ADDED callback body (App.tsx lines 237-248): not found is a
no-op, otherwise `createTree('')` (with the fresh `generateId()` result
`newId`) is inserted immediately after the matched child. -/
def addedOp (newId : String) (target : String) (cs : List Tree) : List Tree :=
  match List.findIdx? (fun e => e.id == target) cs with
  | none => cs
  | some n => cs.take (n + 1) ++ [createTree newId "" none] ++ cs.drop (n + 1)

/-- Embeds the REMOVED callback body (App.tsx lines 264-269):
`children.splice(index, 1)` deletes the matched child. -/
def removedOp (target : String) (cs : List Tree) : List Tree :=
  match List.findIdx? (fun e => e.id == target) cs with
  | none => cs
  | some n => cs.take n ++ cs.drop (n + 1)

mutual

/-- Embeds the structural-command traversal: `updateTree` (App.tsx lines
116-131) with a callback that rewrites `parent.children`.  The callback
fires at every node one of whose children carries the target id (a match at
the root has no parent and returns at once, so the root's own id is never
tested).  Under the unique-id invariant at most one node in the tree
matches and the callback commutes with the remaining identity recursion;
the embedding therefore recurses first and then applies `op`. -/
def applyAt (op : List Tree → List Tree) (target : String) : Tree → Tree
  | Tree.mk i s none => Tree.mk i s none
  | Tree.mk i s (some cs) =>
    Tree.mk i s (some
      (if cs.any (fun c => c.id == target) then op (applyAtL op target cs)
       else applyAtL op target cs))

/-- The `forEach` loop of the structural-command traversal. -/
def applyAtL (op : List Tree → List Tree) (target : String) : List Tree → List Tree
  | [] => []
  | c :: cs => applyAt op target c :: applyAtL op target cs

end

/-- Embeds the `Action` union (App.tsx lines 141-161). -/
inductive Action where
  | textChanged (id : String) (text : String)
  | moveUp (id : String)
  | moveDown (id : String)
  | added (id : String)
  | removed (id : String)

/-- The target id carried by an action's payload. -/
def Action.targetId : Action → String
  | .textChanged i _ => i
  | .moveUp i => i
  | .moveDown i => i
  | .added i => i
  | .removed i => i

/-- Embeds `reducer` (App.tsx lines 163-275).  `immer`'s `produce` applies
the draft mutations and yields a new snapshot; `newId` is the value of the
`generateId()` call made by the ADDED case (unused by the others). -/
def reducer (newId : String) (state : Data) (a : Action) : Data :=
  match a with
  | .textChanged id text =>
    { version := state.version
      tree := updateTree id (fun u => Tree.mk u.id text u.children) state.tree }
  | .moveUp id =>
    { version := state.version, tree := applyAt (moveUpOp id) id state.tree }
  | .moveDown id =>
    { version := state.version, tree := applyAt (moveDownOp id) id state.tree }
  | .added id =>
    { version := state.version, tree := applyAt (addedOp newId id) id state.tree }
  | .removed id =>
    { version := state.version, tree := applyAt (removedOp id) id state.tree }

/-- Index bookkeeping for a run of commands: only the ADDED case calls
`generateId()`, so only it advances the supply. -/
def nextIdx (a : Action) (n : Nat) : Nat :=
  match a with
  | .added _ => n + 1
  | _ => n

/-- Runs a sequence of commands through `reducer`, drawing each ADDED
command's `generateId()` result from `supply`. -/
def runSeq (supply : Nat → String) : Data → List Action → Nat → Data
  | d, [], _ => d
  | d, a :: as, n => runSeq supply (reducer (supply n) d a) as (nextIdx a n)

/-! ## Observation functions -/

mutual

/-- All nodes of a tree in pre-order (parent before children). -/
def preNodes : Tree → List Tree
  | Tree.mk i s none => [Tree.mk i s none]
  | Tree.mk i s (some cs) => Tree.mk i s (some cs) :: preNodesL cs

/-- Pre-order node lists of a forest, concatenated left to right. -/
def preNodesL : List Tree → List Tree
  | [] => []
  | c :: cs => preNodes c ++ preNodesL cs

end

/-- The ids of all nodes, in pre-order. -/
def ids (t : Tree) : List String := (preNodes t).map Tree.id

/-- The ids of all nodes of a forest, in pre-order. -/
def idsL (cs : List Tree) : List String := (preNodesL cs).map Tree.id

/-- The ids of all strict descendants of a node. -/
def subIds (t : Tree) : List String := idsL t.childList

/-- The (id, text) pairs of all nodes, in pre-order. -/
def labels (t : Tree) : List (String × String) :=
  (preNodes t).map (fun u => (u.id, u.text))

/-- The (id, text) pairs of all nodes of a forest, in pre-order. -/
def labelsL (cs : List Tree) : List (String × String) :=
  (preNodesL cs).map (fun u => (u.id, u.text))

/-- The ids of a node's immediate children, in order. -/
def childIds (t : Tree) : List String := t.childList.map Tree.id

/-- The first node in pre-order whose id is `x`. -/
def findNode (x : String) (t : Tree) : Option Tree :=
  (preNodes t).find? (fun u => u.id == x)

/-- The first node in pre-order having a child whose id is `x`. -/
def findParent (x : String) (t : Tree) : Option Tree :=
  (preNodes t).find? (fun u => u.childList.any (fun c => c.id == x))

/-- The position of the node with id `x` among its parent's children. -/
def siblingIdx (x : String) (t : Tree) : Option Nat :=
  (findParent x t).bind (fun u => List.findIdx? (fun e => e.id == x) u.childList)

/-! ## Basic structural lemmas -/

theorem List.sizeOf_lt_of_mem' {c : Tree} {cs : List Tree} (h : c ∈ cs) :
    sizeOf c < sizeOf cs := by
  induction cs with
  | nil => cases h
  | cons d ds ih =>
    rcases List.mem_cons.mp h with rfl | h'
    · simp only [List.cons.sizeOf_spec]; omega
    · have := ih h'; simp only [List.cons.sizeOf_spec]; omega

theorem sizeOf_lt_of_mem_childList {c t : Tree} (h : c ∈ t.childList) :
    sizeOf c < sizeOf t := by
  cases t with
  | mk i s cs =>
    cases cs with
    | none => simp [Tree.childList] at h
    | some l =>
      simp only [Tree.childList_mk_some] at h
      have := List.sizeOf_lt_of_mem' h
      simp only [Tree.mk.sizeOf_spec, Option.some.sizeOf_spec]
      omega

/-- Strong induction over a tree: prove a property at a node from the same
property at every child. -/
theorem Tree.strongInd {P : Tree → Prop}
    (h : ∀ t : Tree, (∀ c ∈ t.childList, P c) → P t) : ∀ t, P t
  | t => h t (fun c hc => Tree.strongInd h c)
termination_by t => sizeOf t
decreasing_by exact sizeOf_lt_of_mem_childList hc

@[simp] theorem preNodes_eq (t : Tree) : preNodes t = t :: preNodesL t.childList := by
  cases t with
  | mk i s cs => cases cs <;> simp [preNodes, preNodesL, Tree.childList]

@[simp] theorem preNodesL_nil : preNodesL [] = [] := rfl

@[simp] theorem preNodesL_cons (c : Tree) (cs : List Tree) :
    preNodesL (c :: cs) = preNodes c ++ preNodesL cs := rfl

theorem preNodesL_append (l₁ l₂ : List Tree) :
    preNodesL (l₁ ++ l₂) = preNodesL l₁ ++ preNodesL l₂ := by
  induction l₁ with
  | nil => simp
  | cons c cs ih => simp [ih]

theorem self_mem_preNodes (t : Tree) : t ∈ preNodes t := by
  rw [preNodes_eq]; exact List.mem_cons_self t _

theorem mem_preNodesL {u : Tree} {cs : List Tree} :
    u ∈ preNodesL cs ↔ ∃ c ∈ cs, u ∈ preNodes c := by
  induction cs with
  | nil => simp
  | cons c cs ih =>
    rw [preNodesL_cons, List.mem_append, ih]
    constructor
    · rintro (h | ⟨d, hd, hu⟩)
      · exact ⟨c, List.mem_cons_self c cs, h⟩
      · exact ⟨d, List.mem_cons_of_mem _ hd, hu⟩
    · rintro ⟨d, hd, hu⟩
      rcases List.mem_cons.mp hd with rfl | hd'
      · exact Or.inl hu
      · exact Or.inr ⟨d, hd', hu⟩

theorem preNodes_trans {v u t : Tree} (hu : u ∈ preNodes t) (hv : v ∈ preNodes u) :
    v ∈ preNodes t := by
  induction t using Tree.strongInd generalizing u with
  | _ t ih =>
    rw [preNodes_eq] at hu ⊢
    rcases List.mem_cons.mp hu with rfl | hu'
    · rw [preNodes_eq] at hv; exact hv
    · rcases mem_preNodesL.mp hu' with ⟨c, hc, hu''⟩
      exact List.mem_cons_of_mem _ (mem_preNodesL.mpr ⟨c, hc, ih c hc hu'' hv⟩)

theorem child_mem_preNodes {c u t : Tree} (hu : u ∈ preNodes t) (hc : c ∈ u.childList) :
    c ∈ preNodes t :=
  preNodes_trans hu (by
    rw [preNodes_eq]
    exact List.mem_cons_of_mem _ (mem_preNodesL.mpr ⟨c, hc, self_mem_preNodes c⟩))

@[simp] theorem ids_eq (t : Tree) : ids t = t.id :: idsL t.childList := by
  simp [ids, idsL]

@[simp] theorem idsL_nil : idsL [] = [] := rfl

@[simp] theorem idsL_cons (c : Tree) (cs : List Tree) :
    idsL (c :: cs) = ids c ++ idsL cs := by
  simp [idsL, ids]

theorem idsL_append (l₁ l₂ : List Tree) : idsL (l₁ ++ l₂) = idsL l₁ ++ idsL l₂ := by
  simp [idsL, preNodesL_append]

theorem subIds_eq (t : Tree) : subIds t = idsL t.childList := rfl

theorem mem_ids_iff {x : String} {t : Tree} :
    x ∈ ids t ↔ ∃ u ∈ preNodes t, u.id = x := by
  simp [ids]; tauto

theorem mem_idsL_iff {x : String} {cs : List Tree} :
    x ∈ idsL cs ↔ ∃ c ∈ cs, x ∈ ids c := by
  induction cs with
  | nil => simp
  | cons c cs ih =>
    rw [idsL_cons, List.mem_append, ih]
    constructor
    · rintro (h | ⟨d, hd, hx⟩)
      · exact ⟨c, List.mem_cons_self c cs, h⟩
      · exact ⟨d, List.mem_cons_of_mem _ hd, hx⟩
    · rintro ⟨d, hd, hx⟩
      rcases List.mem_cons.mp hd with rfl | hd'
      · exact Or.inl hx
      · exact Or.inr ⟨d, hd', hx⟩

theorem ids_sub_of_mem {c : Tree} {cs : List Tree} (h : c ∈ cs) : ids c ⊆ idsL cs :=
  fun x hx => mem_idsL_iff.mpr ⟨c, h, hx⟩

theorem subIds_sub_ids (t : Tree) : subIds t ⊆ ids t := by
  rw [ids_eq, subIds_eq]; exact List.subset_cons_of_subset _ (List.Subset.refl _)

theorem id_mem_ids (t : Tree) : t.id ∈ ids t := by
  rw [ids_eq]; exact List.mem_cons_self _ _

theorem ids_of_preNode_sub {u t : Tree} (hu : u ∈ preNodes t) : ids u ⊆ ids t := by
  intro x hx
  rcases mem_ids_iff.mp hx with ⟨v, hv, rfl⟩
  exact mem_ids_iff.mpr ⟨v, preNodes_trans hu hv, rfl⟩

@[simp] theorem labels_eq (t : Tree) :
    labels t = (t.id, t.text) :: labelsL t.childList := by
  simp [labels, labelsL]

@[simp] theorem labelsL_nil : labelsL [] = [] := rfl

@[simp] theorem labelsL_cons (c : Tree) (cs : List Tree) :
    labelsL (c :: cs) = labels c ++ labelsL cs := by
  simp [labelsL, labels]

theorem labelsL_append (l₁ l₂ : List Tree) :
    labelsL (l₁ ++ l₂) = labelsL l₁ ++ labelsL l₂ := by
  simp [labelsL, preNodesL_append]

theorem ids_eq_labels_fst (t : Tree) : ids t = (labels t).map Prod.fst := by
  simp only [ids, labels, List.map_map]
  rfl

/-! ## Nodup decomposition -/

theorem nodup_childList {t : Tree} (hnd : (ids t).Nodup) :
    t.id ∉ idsL t.childList ∧ (idsL t.childList).Nodup := by
  rw [ids_eq] at hnd
  exact ⟨(List.nodup_cons.mp hnd).1, (List.nodup_cons.mp hnd).2⟩

theorem nodup_of_mem_forest {c : Tree} {cs : List Tree}
    (hnd : (idsL cs).Nodup) (hc : c ∈ cs) : (ids c).Nodup := by
  induction cs with
  | nil => cases hc
  | cons d ds ih =>
    rw [idsL_cons, List.nodup_append] at hnd
    rcases List.mem_cons.mp hc with rfl | h'
    · exact hnd.1
    · exact ih hnd.2.1 h'

theorem target_not_below {target : String} {c₀ : Tree} {cs : List Tree}
    (hnd : (idsL cs).Nodup) (hc₀ : c₀ ∈ cs) (hid : c₀.id = target) :
    ∀ c ∈ cs, target ∉ subIds c := by
  induction cs with
  | nil => cases hc₀
  | cons d ds ih =>
    rw [idsL_cons, List.nodup_append] at hnd
    obtain ⟨hd, hds, hdisj⟩ := hnd
    rcases List.mem_cons.mp hc₀ with rfl | h₀
    · intro c hc
      rcases List.mem_cons.mp hc with rfl | hc'
      · rw [ids_eq] at hd
        intro hmem
        exact (List.nodup_cons.mp hd).1 (hid ▸ hmem)
      · intro hmem
        have h1 : target ∈ ids c₀ := hid ▸ id_mem_ids c₀
        have h2 : target ∈ idsL ds :=
          ids_sub_of_mem hc' ((subIds_sub_ids c) hmem)
        exact hdisj h1 h2
    · intro c hc
      rcases List.mem_cons.mp hc with rfl | hc'
      · intro hmem
        have h1 : target ∈ ids c := (subIds_sub_ids c) hmem
        have h2 : target ∈ idsL ds := ids_sub_of_mem h₀ (hid ▸ id_mem_ids c₀)
        exact hdisj h1 h2
      · exact ih hds h₀ c hc'

theorem exists_unique_sub {target : String} {cs : List Tree}
    (hnd : (idsL cs).Nodup) (hm : target ∈ idsL cs) :
    ∃ l₁ c l₂, cs = l₁ ++ c :: l₂ ∧ target ∈ ids c ∧
      target ∉ idsL l₁ ∧ target ∉ idsL l₂ := by
  induction cs with
  | nil => simp at hm
  | cons d ds ih =>
    rw [idsL_cons, List.nodup_append] at hnd
    obtain ⟨hd, hds, hdisj⟩ := hnd
    rw [idsL_cons, List.mem_append] at hm
    by_cases hmd : target ∈ ids d
    · exact ⟨[], d, ds, by simp, hmd, by simp, fun h => hdisj hmd h⟩
    · have hm' : target ∈ idsL ds := hm.resolve_left hmd
      rcases ih hds hm' with ⟨l₁, c, l₂, heq, hin, h1, h2⟩
      exact ⟨d :: l₁, c, l₂, by simp [heq], hin, by
        rw [idsL_cons, List.mem_append]; tauto, h2⟩

/-! ## Traversal lemmas for the structural commands -/

theorem applyAtL_eq_map (op : List Tree → List Tree) (target : String) (cs : List Tree) :
    applyAtL op target cs = cs.map (applyAt op target) := by
  induction cs with
  | nil => rfl
  | cons c cs ih => simp [applyAtL, ih]

theorem applyAt_mk_none (op : List Tree → List Tree) (target i s : String) :
    applyAt op target (Tree.mk i s none) = Tree.mk i s none := rfl

theorem applyAt_mk_some (op : List Tree → List Tree) (target i s : String) (cs : List Tree) :
    applyAt op target (Tree.mk i s (some cs)) =
      Tree.mk i s (some
        (if cs.any (fun c => c.id == target) then op (applyAtL op target cs)
         else applyAtL op target cs)) := rfl

theorem applyAt_id (op : List Tree → List Tree) (target : String) (t : Tree) :
    (applyAt op target t).id = t.id := by
  cases t with
  | mk i s cs => cases cs <;> simp [applyAt_mk_none, applyAt_mk_some]

theorem applyAt_text (op : List Tree → List Tree) (target : String) (t : Tree) :
    (applyAt op target t).text = t.text := by
  cases t with
  | mk i s cs => cases cs <;> simp [applyAt_mk_none, applyAt_mk_some]

theorem map_eq_self_of {α : Type} {l : List α} {f : α → α} (h : ∀ a ∈ l, f a = a) :
    l.map f = l := by
  induction l with
  | nil => rfl
  | cons a l ih =>
    rw [List.map_cons, h a (List.mem_cons_self a l),
      ih (fun b hb => h b (List.mem_cons_of_mem _ hb))]

theorem any_id_eq_false_of {target : String} {cs : List Tree}
    (h : target ∉ idsL cs) : cs.any (fun c => c.id == target) = false := by
  rw [List.any_eq_false]
  intro c hc
  simp only [beq_iff_eq]
  intro heq
  exact h (mem_idsL_iff.mpr ⟨c, hc, heq ▸ id_mem_ids c⟩)

theorem applyAt_no_match {op : List Tree → List Tree} {target : String} {t : Tree}
    (h : target ∉ subIds t) : applyAt op target t = t := by
  induction t using Tree.strongInd with
  | _ t ih =>
    cases t with
    | mk i s cs =>
      cases cs with
      | none => rfl
      | some l =>
        rw [subIds_eq, Tree.childList_mk_some] at h
        rw [applyAt_mk_some, any_id_eq_false_of h]
        simp only [Bool.false_eq_true, if_neg, ite_false]
        have hl : applyAtL op target l = l := by
          rw [applyAtL_eq_map]
          apply map_eq_self_of
          intro c hc
          exact ih c (by simpa using hc) (fun hsub =>
            h (ids_sub_of_mem hc ((subIds_sub_ids c) hsub)))
        rw [hl]

theorem applyAtL_no_match {op : List Tree → List Tree} {target : String} {cs : List Tree}
    (h : target ∉ idsL cs) : applyAtL op target cs = cs := by
  rw [applyAtL_eq_map]
  apply map_eq_self_of
  intro c hc
  exact applyAt_no_match (fun hsub =>
    h (ids_sub_of_mem hc ((subIds_sub_ids c) hsub)))

theorem applyAt_hit {op : List Tree → List Tree} {target i s : String} {cs : List Tree}
    (hnd : (ids (Tree.mk i s (some cs))).Nodup) (hm : ∃ c ∈ cs, c.id = target) :
    applyAt op target (Tree.mk i s (some cs)) = Tree.mk i s (some (op cs)) := by
  obtain ⟨c₀, hc₀, hid⟩ := hm
  have hany : cs.any (fun c => c.id == target) = true := by
    rw [List.any_eq_true]
    exact ⟨c₀, hc₀, by simp [hid]⟩
  have hndl : (idsL cs).Nodup := (nodup_childList hnd).2
  have hfix : applyAtL op target cs = cs := by
    rw [applyAtL_eq_map]
    apply map_eq_self_of
    intro c hc
    exact applyAt_no_match (target_not_below hndl hc₀ hid c hc)
  rw [applyAt_mk_some, hany, if_pos rfl, hfix]

theorem applyAt_deep {op : List Tree → List Tree} {target i s : String} {cs : List Tree}
    (hm : ∀ c ∈ cs, c.id ≠ target) :
    applyAt op target (Tree.mk i s (some cs)) =
      Tree.mk i s (some (cs.map (applyAt op target))) := by
  have hany : cs.any (fun c => c.id == target) = false := by
    rw [List.any_eq_false]
    intro c hc
    simpa using hm c hc
  rw [applyAt_mk_some, hany]
  simp [applyAtL_eq_map]

/-! ## Lemmas about findNode and findParent -/

theorem findNode_eq_none {x : String} {t : Tree} (h : x ∉ ids t) :
    findNode x t = none := by
  rw [findNode, List.find?_eq_none]
  intro u hu
  simp only [beq_eq_false_iff_ne, ne_eq, Bool.not_eq_true]
  intro heq
  exact h (mem_ids_iff.mpr ⟨u, hu, by simpa using heq⟩)

theorem findNode_some_spec {x : String} {t u : Tree} (h : findNode x t = some u) :
    u ∈ preNodes t ∧ u.id = x := by
  refine ⟨List.mem_of_find?_eq_some h, ?_⟩
  have := List.find?_some h
  simpa using this

theorem findParent_eq_none {target : String} {t : Tree}
    (h : ∀ u ∈ preNodes t, ∀ c ∈ u.childList, c.id ≠ target) :
    findParent target t = none := by
  rw [findParent, List.find?_eq_none]
  intro u hu
  simp only [Bool.not_eq_true, List.any_eq_false]
  intro c hc
  simpa using h u hu c hc

theorem findParent_some_spec {target : String} {t u : Tree}
    (h : findParent target t = some u) :
    u ∈ preNodes t ∧ ∃ c ∈ u.childList, c.id = target := by
  refine ⟨List.mem_of_find?_eq_some h, ?_⟩
  have := List.find?_some h
  rw [List.any_eq_true] at this
  rcases this with ⟨c, hc, hcid⟩
  exact ⟨c, hc, by simpa using hcid⟩

theorem findParent_isSome {target : String} {t : Tree}
    (hm : target ∈ ids t) (hr : target ≠ t.id) :
    ∃ u, findParent target t = some u := by
  have : ∃ u ∈ preNodes t, ∃ c ∈ u.childList, c.id = target := by
    induction t using Tree.strongInd with
    | _ t ih =>
      rw [ids_eq] at hm
      rcases List.mem_cons.mp hm with heq | hsub
      · exact absurd heq hr
      · rcases mem_idsL_iff.mp hsub with ⟨c, hc, hin⟩
        by_cases hcid : c.id = target
        · exact ⟨t, self_mem_preNodes t, c, hc, hcid⟩
        · rcases ih c hc hin (fun h => hcid h.symm) with ⟨u, hu, c', hc', hid'⟩
          exact ⟨u, preNodes_trans (child_mem_preNodes (self_mem_preNodes t) hc) hu,
            c', hc', hid'⟩
  rcases this with ⟨u, hu, c, hc, hid⟩
  have : (preNodes t).find? (fun v => v.childList.any (fun c => c.id == target)) ≠ none := by
    intro hnone
    rw [List.find?_eq_none] at hnone
    have := hnone u hu
    rw [Bool.not_eq_true, List.any_eq_false] at this
    exact absurd (by simp [hid] : (c.id == target) = true) (by simpa using this c hc)
  rcases Option.ne_none_iff_exists'.mp this with ⟨u', hu'⟩
  exact ⟨u', hu'⟩

/-! ## Spec-side list descriptions used in claim statements -/

/-- The text of the node with id `x`. -/
def textOf (x : String) (t : Tree) : Option String := (findNode x t).map Tree.text

/-- The child-id list of the node with id `x`. -/
def childIdsOf (x : String) (t : Tree) : Option (List String) :=
  (findNode x t).map childIds

/-- Inserts `b` immediately after the first occurrence of `a`. -/
def insertAfterId (a b : String) (xs : List String) : List String :=
  match List.findIdx? (fun x => x == a) xs with
  | none => xs
  | some n => xs.take (n + 1) ++ b :: xs.drop (n + 1)

/-- Swaps the entries at positions `m` and `m + 1`. -/
def swapIds (m : Nat) (xs : List String) : List String :=
  xs.take m ++ [xs.getD (m + 1) "", xs.getD m ""] ++ xs.drop (m + 2)

/-! ## List surgery lemmas -/

theorem getD_eq_getElem {α : Type} (l : List α) (d : α) {n : Nat} (h : n < l.length) :
    l.getD n d = l[n] := by
  rw [List.getD_eq_getElem?_getD, List.getElem?_eq_getElem h, Option.getD_some]

theorem getD_map_id (cs : List Tree) (n : Nat) :
    (cs.map Tree.id).getD n "" = (cs.getD n dTree).id := by
  by_cases h : n < cs.length
  · rw [getD_eq_getElem _ _ (by simpa using h), getD_eq_getElem _ _ h, List.getElem_map]
  · rw [List.getD_eq_getElem?_getD, List.getD_eq_getElem?_getD,
      List.getElem?_eq_none (by simpa using Nat.le_of_not_lt h),
      List.getElem?_eq_none (Nat.le_of_not_lt h)]
    rfl

theorem list_decomp1 {α : Type} (l : List α) (d : α) {n : Nat} (h : n < l.length) :
    l = l.take n ++ l.getD n d :: l.drop (n + 1) := by
  conv_lhs => rw [← List.take_append_drop n l]
  rw [List.drop_eq_getElem_cons h, getD_eq_getElem _ _ h]

theorem list_decomp2 {α : Type} (l : List α) (d : α) {m : Nat} (h : m + 1 < l.length) :
    l = l.take m ++ [l.getD m d, l.getD (m + 1) d] ++ l.drop (m + 2) := by
  have h0 : m < l.length := Nat.lt_of_succ_lt h
  conv_lhs => rw [← List.take_append_drop m l]
  rw [List.drop_eq_getElem_cons h0, List.drop_eq_getElem_cons h,
    getD_eq_getElem _ _ h0, getD_eq_getElem _ _ h]
  simp

theorem surgery_swap_perm {α : Type} (l : List α) (d : α) {m : Nat} (h : m + 1 < l.length) :
    List.Perm (l.take m ++ [l.getD (m + 1) d, l.getD m d] ++ l.drop (m + 2)) l := by
  conv_rhs => rw [list_decomp2 l d h]
  apply List.Perm.append_right
  apply List.Perm.append_left
  exact List.Perm.swap _ _ _

theorem surgery_insert_perm {α : Type} (l : List α) (x : α) (n : Nat) :
    List.Perm (l.take (n + 1) ++ x :: l.drop (n + 1)) (x :: l) := by
  have h : List.Perm (l.take (n + 1) ++ x :: l.drop (n + 1))
      (x :: (l.take (n + 1) ++ l.drop (n + 1))) := List.perm_middle
  rw [List.take_append_drop] at h
  exact h

theorem surgery_remove_perm {α : Type} (l : List α) (d : α) {n : Nat} (h : n < l.length) :
    List.Perm (l.getD n d :: (l.take n ++ l.drop (n + 1))) l := by
  conv_rhs => rw [list_decomp1 l d h]
  have h2 : List.Perm (l.take n ++ l.getD n d :: l.drop (n + 1))
      (l.getD n d :: (l.take n ++ l.drop (n + 1))) := List.perm_middle
  exact h2.symm

/-! ## The index found by the structural callbacks -/

theorem findIdx?_id_some {target : String} {cs : List Tree} (hm : ∃ c ∈ cs, c.id = target) :
    ∃ n, List.findIdx? (fun e => e.id == target) cs = some n ∧ n < cs.length ∧
      (cs.getD n dTree).id = target := by
  obtain ⟨c, hc, hid⟩ := hm
  have : ∃ x, x ∈ cs ∧ (fun e : Tree => e.id == target) x := ⟨c, hc, by simp [hid]⟩
  have hsome := List.findIdx?_eq_some_of_exists this
  refine ⟨cs.findIdx (fun e => e.id == target), hsome, ?_, ?_⟩
  · rcases List.findIdx?_eq_some_iff_getElem.mp hsome with ⟨hlt, _, _⟩
    exact hlt
  · rcases List.findIdx?_eq_some_iff_getElem.mp hsome with ⟨hlt, hp, _⟩
    rw [getD_eq_getElem _ _ hlt]
    simpa using hp

theorem findIdx?_ids_eq {target : String} (cs : List Tree) :
    List.findIdx? (fun x => x == target) (cs.map Tree.id) =
      List.findIdx? (fun e => e.id == target) cs := by
  rw [List.findIdx?_map]
  rfl

/-! ## Deep-step plumbing: the target lives strictly below one child -/

theorem find?_id_none_forest {x : String} {l : List Tree} (h : x ∉ idsL l) :
    (preNodesL l).find? (fun u => u.id == x) = none := by
  rw [List.find?_eq_none]
  intro u hu
  rcases mem_preNodesL.mp hu with ⟨c, hc, hu'⟩
  simp only [Bool.not_eq_true, beq_eq_false_iff_ne, ne_eq]
  intro heq
  exact h (ids_sub_of_mem hc (ids_of_preNode_sub hu' (heq ▸ id_mem_ids u)))

theorem findParent_none_forest {target : String} {l : List Tree} (h : target ∉ idsL l) :
    (preNodesL l).find? (fun u => u.childList.any (fun c => c.id == target)) = none := by
  rw [List.find?_eq_none]
  intro u hu
  rcases mem_preNodesL.mp hu with ⟨c, hc, hu'⟩
  simp only [Bool.not_eq_true, List.any_eq_false, beq_eq_false_iff_ne, ne_eq]
  intro c' hc' heq
  exact h (ids_sub_of_mem hc
    (ids_of_preNode_sub (child_mem_preNodes hu' hc') (heq ▸ id_mem_ids c')))

theorem findNode_deep_some {x i s : String} {l₁ l₂ : List Tree} {c' w : Tree}
    (hxi : x ≠ i) (hl₁ : x ∉ idsL l₁) (hw : findNode x c' = some w) :
    findNode x (Tree.mk i s (some (l₁ ++ c' :: l₂))) = some w := by
  rw [findNode, preNodes_eq, List.find?_cons_of_neg _ (by simpa using (Ne.symm hxi)),
    Tree.childList_mk_some, preNodesL_append, preNodesL_cons, List.find?_append,
    List.find?_append, find?_id_none_forest hl₁]
  rw [findNode] at hw
  rw [hw]
  rfl

theorem findParent_deep_some {target i s : String} {l₁ l₂ : List Tree} {c' v : Tree}
    (hroot : ∀ c ∈ l₁ ++ c' :: l₂, c.id ≠ target) (hl₁ : target ∉ idsL l₁)
    (hv : findParent target c' = some v) :
    findParent target (Tree.mk i s (some (l₁ ++ c' :: l₂))) = some v := by
  have hpred : ((l₁ ++ c' :: l₂).any (fun c => c.id == target)) = false := by
    rw [List.any_eq_false]
    intro c hc
    simpa using hroot c hc
  rw [findParent, preNodes_eq, List.find?_cons_of_neg _ (by simpa using hpred),
    Tree.childList_mk_some, preNodesL_append, preNodesL_cons, List.find?_append,
    List.find?_append, findParent_none_forest hl₁]
  rw [findParent] at hv
  rw [hv]
  rfl

theorem applyAt_deep_split {op : List Tree → List Tree} {target i s : String}
    {cs l₁ l₂ : List Tree} {c : Tree}
    (hm : ∀ d ∈ cs, d.id ≠ target) (hsplit : cs = l₁ ++ c :: l₂)
    (h₁ : target ∉ idsL l₁) (h₂ : target ∉ idsL l₂) :
    applyAt op target (Tree.mk i s (some cs)) =
      Tree.mk i s (some (l₁ ++ applyAt op target c :: l₂)) := by
  have e₁ : List.map (applyAt op target) l₁ = l₁ :=
    map_eq_self_of (fun d hd => applyAt_no_match
      (fun hsub => h₁ (ids_sub_of_mem hd ((subIds_sub_ids d) hsub))))
  have e₂ : List.map (applyAt op target) l₂ = l₂ :=
    map_eq_self_of (fun d hd => applyAt_no_match
      (fun hsub => h₂ (ids_sub_of_mem hd ((subIds_sub_ids d) hsub))))
  rw [applyAt_deep hm, hsplit, List.map_append, List.map_cons, e₁, e₂]

/-- At a node none of whose children carries the target id, the target (when
present and unique) lives strictly below exactly one child; this packages
the split used by every structural master lemma. -/
theorem deep_split {target i s : String} {cs : List Tree}
    (hnd : (ids (Tree.mk i s (some cs))).Nodup)
    (hm : target ∈ ids (Tree.mk i s (some cs))) (hr : target ≠ i)
    (hnochild : ∀ c ∈ cs, c.id ≠ target) :
    ∃ l₁ c l₂, cs = l₁ ++ c :: l₂ ∧ target ∈ ids c ∧ target ≠ c.id ∧
      target ∉ idsL l₁ ∧ target ∉ idsL l₂ := by
  have hsub : target ∈ idsL cs := by
    rw [ids_eq] at hm
    rcases List.mem_cons.mp hm with heq | h
    · exact absurd heq (by simpa using hr)
    · simpa using h
  have hndl : (idsL cs).Nodup := by
    simpa using (nodup_childList hnd).2
  rcases exists_unique_sub hndl hsub with ⟨l₁, c, l₂, hsplit, hin, h₁, h₂⟩
  refine ⟨l₁, c, l₂, hsplit, hin, ?_, h₁, h₂⟩
  have : c ∈ cs := hsplit ▸ (List.mem_append.mpr (Or.inr (List.mem_cons_self c l₂)))
  exact fun h => (hnochild c this) h.symm

theorem idsL_split_left {l l₁ l₂ : List Tree} {c : Tree} (hsplit : l = l₁ ++ c :: l₂) :
    idsL l₁ ⊆ idsL l := by
  rw [hsplit, idsL_append, idsL_cons]
  intro x hx
  exact List.mem_append.mpr (Or.inl hx)

theorem idsL_sub_ids {x i s : String} {l : List Tree}
    (h : x ∈ idsL l) : x ∈ ids (Tree.mk i s (some l)) := by
  rw [ids_eq, Tree.childList_mk_some]
  exact List.mem_cons_of_mem _ h

theorem ids_mem_of_split {l l₁ l₂ : List Tree} {c : Tree} {x : String}
    (hsplit : l = l₁ ++ c :: l₂) (hx : x ∈ ids c) : x ∈ idsL l := by
  rw [hsplit, idsL_append, idsL_cons]
  exact List.mem_append.mpr (Or.inr (List.mem_append.mpr (Or.inl hx)))

/-! ## Master lemma for the ADDED command -/

theorem master_added : ∀ (t : Tree) (target nid : String),
    (ids t).Nodup → target ∈ ids t → target ≠ t.id → nid ∉ ids t →
    ∃ u v, findParent target t = some u ∧
      findParent target (applyAt (addedOp nid target) target t) = some v ∧
      v.id = u.id ∧ v.text = u.text ∧
      childIds v = insertAfterId target nid (childIds u) ∧
      List.Perm (labels (applyAt (addedOp nid target) target t)) ((nid, "") :: labels t) ∧
      findNode nid (applyAt (addedOp nid target) target t) = some (Tree.mk nid "" none) := by
  intro t
  induction t using Tree.strongInd with
  | _ t ih =>
    intro target nid hnd hm hr hfresh
    cases t with
    | mk i s cs =>
      have hi_ne : nid ≠ i := fun h => hfresh (h ▸ id_mem_ids (Tree.mk i s cs))
      cases cs with
      | none =>
        rw [ids_eq] at hm
        simp at hm
        exact absurd (by simp [hm] : target = (Tree.mk i s none).id) hr
      | some l =>
        by_cases hdirect : ∃ c ∈ l, c.id = target
        · -- the target is a direct child of this node
          obtain ⟨c₀, hc₀, hc₀id⟩ := hdirect
          have ht' : applyAt (addedOp nid target) target (Tree.mk i s (some l)) =
              Tree.mk i s (some (addedOp nid target l)) :=
            applyAt_hit hnd ⟨c₀, hc₀, hc₀id⟩
          rcases findIdx?_id_some ⟨c₀, hc₀, hc₀id⟩ with ⟨n, hfind, hlt, hgetid⟩
          have hop : addedOp nid target l =
              l.take (n + 1) ++ [Tree.mk nid "" none] ++ l.drop (n + 1) := by
            rw [addedOp, hfind]; rfl
          have hmem' : c₀ ∈ addedOp nid target l := by
            rw [hop]
            have hc₀' : c₀ ∈ l.take (n + 1) ++ l.drop (n + 1) := by
              rw [List.take_append_drop]; exact hc₀
            rcases List.mem_append.mp hc₀' with h | h
            · exact List.mem_append.mpr (Or.inl (List.mem_append.mpr (Or.inl h)))
            · exact List.mem_append.mpr (Or.inr h)
          have hu : findParent target (Tree.mk i s (some l)) =
              some (Tree.mk i s (some l)) := by
            rw [findParent, preNodes_eq]
            exact List.find?_cons_of_pos _ (by
              rw [Tree.childList_mk_some, List.any_eq_true]
              exact ⟨c₀, hc₀, by simp [hc₀id]⟩)
          have hv : findParent target (Tree.mk i s (some (addedOp nid target l))) =
              some (Tree.mk i s (some (addedOp nid target l))) := by
            rw [findParent, preNodes_eq]
            exact List.find?_cons_of_pos _ (by
              rw [Tree.childList_mk_some, List.any_eq_true]
              exact ⟨c₀, hmem', by simp [hc₀id]⟩)
          refine ⟨Tree.mk i s (some l), Tree.mk i s (some (addedOp nid target l)),
            hu, ht' ▸ hv, rfl, rfl, ?_, ?_, ?_⟩
          · -- child ids become the insertion
            rw [childIds, childIds, Tree.childList_mk_some, Tree.childList_mk_some,
              insertAfterId, findIdx?_ids_eq, hfind, hop]
            simp [List.map_take, List.map_drop]
          · -- labels permutation
            rw [ht', labels_eq, labels_eq, Tree.childList_mk_some, Tree.childList_mk_some,
              hop, labelsL_append, labelsL_append]
            have hnew : labelsL [Tree.mk nid "" none] = [(nid, "")] := by
              rw [labelsL_cons]
              simp [labels_eq, labelsL]
            rw [hnew]
            have hmid : List.Perm
                (labelsL (l.take (n + 1)) ++ [(nid, "")] ++ labelsL (l.drop (n + 1)))
                ((nid, "") :: (labelsL (l.take (n + 1)) ++ labelsL (l.drop (n + 1)))) := by
              have hp : List.Perm
                  (labelsL (l.take (n + 1)) ++ (nid, "") :: labelsL (l.drop (n + 1)))
                  ((nid, "") :: (labelsL (l.take (n + 1)) ++ labelsL (l.drop (n + 1)))) :=
                List.perm_middle
              simpa [List.append_assoc] using hp
            have hrest : labelsL (l.take (n + 1)) ++ labelsL (l.drop (n + 1)) = labelsL l := by
              rw [← labelsL_append, List.take_append_drop]
            refine List.Perm.trans (List.Perm.cons _ (hrest ▸ hmid)) ?_
            exact List.Perm.swap _ _ _
          · -- the new node is found
            rw [ht', findNode, preNodes_eq,
              List.find?_cons_of_neg _ (by simpa using hi_ne.symm),
              Tree.childList_mk_some, hop, preNodesL_append, preNodesL_append,
              List.find?_append, List.find?_append]
            have h1 : (preNodesL (l.take (n + 1))).find? (fun u => u.id == nid) = none := by
              apply find?_id_none_forest
              intro hx
              rcases mem_idsL_iff.mp hx with ⟨c, hc, hcx⟩
              exact hfresh (idsL_sub_ids (mem_idsL_iff.mpr
                ⟨c, List.mem_of_mem_take hc, hcx⟩))
            have h2 : (preNodesL [Tree.mk nid "" none]).find? (fun u => u.id == nid) =
                some (Tree.mk nid "" none) := by
              rw [preNodesL_cons, preNodesL_nil, List.append_nil, preNodes_eq]
              exact List.find?_cons_of_pos _ (by simp)
            rw [h1, h2]
            rfl
        · -- the target lives strictly below one child
          push_neg at hdirect
          rcases deep_split hnd hm hr hdirect with ⟨l₁, cm, l₂, hsplit, hin, hneq, h₁, h₂⟩
          have hcm_mem : cm ∈ l :=
            hsplit ▸ List.mem_append.mpr (Or.inr (List.mem_cons_self cm l₂))
          have hndl : (idsL l).Nodup := by
            simpa using (nodup_childList hnd).2
          have hfresh' : nid ∉ ids cm :=
            fun h => hfresh (idsL_sub_ids (ids_mem_of_split hsplit h))
          rcases ih cm (by simpa using hcm_mem) target nid
            (nodup_of_mem_forest hndl hcm_mem) hin (fun h => hneq h) hfresh' with
            ⟨u, v, hu, hv, hid, htext, hchild, hperm, hnew⟩
          have ht' : applyAt (addedOp nid target) target (Tree.mk i s (some l)) =
              Tree.mk i s (some (l₁ ++ applyAt (addedOp nid target) target cm :: l₂)) :=
            applyAt_deep_split hdirect hsplit h₁ h₂
          have hroot : ∀ d ∈ l₁ ++ cm :: l₂, d.id ≠ target := fun d hd => hdirect d (hsplit ▸ hd)
          have hroot' : ∀ d ∈ l₁ ++ applyAt (addedOp nid target) target cm :: l₂,
              d.id ≠ target := by
            intro d hd
            rcases List.mem_append.mp hd with h | h
            · exact hroot d (List.mem_append.mpr (Or.inl h))
            · rcases List.mem_cons.mp h with rfl | h'
              · rw [applyAt_id]
                exact hroot cm (List.mem_append.mpr (Or.inr (List.mem_cons_self cm l₂)))
              · exact hroot d (List.mem_append.mpr (Or.inr (List.mem_cons_of_mem _ h')))
          refine ⟨u, v, ?_, ?_, hid, htext, hchild, ?_, ?_⟩
          · rw [show findParent target (Tree.mk i s (some l)) =
                findParent target (Tree.mk i s (some (l₁ ++ cm :: l₂))) by rw [← hsplit]]
            exact findParent_deep_some hroot h₁ hu
          · rw [ht']
            exact findParent_deep_some hroot' h₁ hv
          · rw [ht', labels_eq, labels_eq, Tree.childList_mk_some, Tree.childList_mk_some,
              hsplit, labelsL_append, labelsL_append, labelsL_cons, labelsL_cons]
            have step1 : List.Perm
                (labelsL l₁ ++ (labels (applyAt (addedOp nid target) target cm) ++ labelsL l₂))
                (labelsL l₁ ++ (((nid, "") :: labels cm) ++ labelsL l₂)) :=
              List.Perm.append_left _ (List.Perm.append_right _ hperm)
            have step2 : List.Perm
                (labelsL l₁ ++ (((nid, "") :: labels cm) ++ labelsL l₂))
                ((nid, "") :: (labelsL l₁ ++ (labels cm ++ labelsL l₂))) := by
              have hp : List.Perm
                  (labelsL l₁ ++ (nid, "") :: (labels cm ++ labelsL l₂))
                  ((nid, "") :: (labelsL l₁ ++ (labels cm ++ labelsL l₂))) :=
                List.perm_middle
              simpa [List.append_assoc] using hp
            refine List.Perm.trans (List.Perm.cons _ (step1.trans step2)) ?_
            exact List.Perm.swap _ _ _
          · rw [ht']
            exact findNode_deep_some hi_ne
              (fun h => hfresh (idsL_sub_ids (idsL_split_left hsplit h))) hnew

/-! ## More Nodup helpers -/

theorem split_disjoint_of_nodup {l l₁ l₂ : List Tree} {c : Tree}
    (hnd : (idsL l).Nodup) (hsplit : l = l₁ ++ c :: l₂) :
    ∀ x ∈ ids c, x ∉ idsL l₁ ∧ x ∉ idsL l₂ := by
  rw [hsplit, idsL_append, idsL_cons] at hnd
  rw [List.nodup_append] at hnd
  obtain ⟨h1, h2, hdisj⟩ := hnd
  rw [List.nodup_append] at h2
  obtain ⟨hc, h3, hdisj2⟩ := h2
  intro x hx
  refine ⟨?_, hdisj2 hx⟩
  intro hx1
  exact hdisj hx1 (List.mem_append.mpr (Or.inl hx))

theorem nodup_preNode {u t : Tree} (hnd : (ids t).Nodup) (hu : u ∈ preNodes t) :
    (ids u).Nodup := by
  induction t using Tree.strongInd with
  | _ t ih =>
    rw [preNodes_eq] at hu
    rcases List.mem_cons.mp hu with rfl | hu'
    · exact hnd
    · rcases mem_preNodesL.mp hu' with ⟨c, hc, hu''⟩
      exact ih c hc (nodup_of_mem_forest (nodup_childList hnd).2 hc) hu''

theorem map_id_sub_idsL (cs : List Tree) : cs.map Tree.id ⊆ idsL cs := by
  intro x hx
  rcases List.mem_map.mp hx with ⟨c, hc, rfl⟩
  exact ids_sub_of_mem hc (id_mem_ids c)

theorem childIds_nodup_of {cs : List Tree} (hnd : (idsL cs).Nodup) :
    (cs.map Tree.id).Nodup := by
  induction cs with
  | nil => simp
  | cons c cs ih =>
    rw [idsL_cons, List.nodup_append] at hnd
    obtain ⟨h1, h2, hdisj⟩ := hnd
    rw [List.map_cons, List.nodup_cons]
    refine ⟨?_, ih h2⟩
    intro hmem
    exact hdisj (id_mem_ids c) (map_id_sub_idsL cs hmem)

theorem find?_id_unique {t u w : Tree} (hnd : (ids t).Nodup)
    (hu : u ∈ preNodes t) (hw : w ∈ preNodes t) (heq : w.id = u.id) : w = u := by
  have hnd' : ((preNodes t).map Tree.id).Nodup := hnd
  exact List.inj_on_of_nodup_map hnd' hw hu heq

/-- Under the unique-id invariant, the pre-order search for `u.id` finds `u`
itself. -/
theorem findNode_self {u t : Tree} (hnd : (ids t).Nodup) (hu : u ∈ preNodes t) :
    findNode u.id t = some u := by
  have hsome : ∃ w, findNode u.id t = some w := by
    have : (preNodes t).find? (fun v => v.id == u.id) ≠ none := by
      intro hnone
      rw [List.find?_eq_none] at hnone
      exact absurd (by simp : (u.id == u.id) = true) (by simpa using hnone u hu)
    rcases Option.ne_none_iff_exists'.mp this with ⟨w, hw⟩
    exact ⟨w, hw⟩
  rcases hsome with ⟨w, hw⟩
  rcases findNode_some_spec hw with ⟨hwmem, hwid⟩
  rw [hw, find?_id_unique hnd hu hwmem hwid]

/-- `List.erase` on a list of ids removes exactly the entry the callback's
`findIndex` locates. -/
theorem erase_eq_take_drop {xs : List String} {target : String} {n : Nat}
    (h : List.findIdx? (fun x => x == target) xs = some n) :
    xs.erase target = xs.take n ++ xs.drop (n + 1) := by
  induction xs generalizing n with
  | nil => simp at h
  | cons x xs ih =>
    rw [List.findIdx?_cons] at h
    by_cases hx : (x == target) = true
    · rw [if_pos hx] at h
      injection h with h
      subst h
      have hxe : x = target := by simpa using hx
      subst hxe
      rw [List.erase_cons_head]
      simp
    · rw [if_neg hx, List.findIdx?_start_succ] at h
      rcases Option.map_eq_some'.mp h with ⟨m, hm, hmn⟩
      have hn : n = m + 1 := by omega
      subst hn
      rw [List.erase_cons_tail (by simpa using hx), ih hm]
      simp

/-! ## Master lemma for the REMOVED command -/

theorem master_removed : ∀ (t : Tree) (target : String),
    (ids t).Nodup → target ∈ ids t → target ≠ t.id →
    ∃ u v sub, findParent target t = some u ∧ findNode target t = some sub ∧
      findNode u.id (applyAt (removedOp target) target t) = some v ∧
      v.id = u.id ∧ v.text = u.text ∧
      target ∈ childIds u ∧
      childIds v = (childIds u).erase target ∧
      List.Perm (labels (applyAt (removedOp target) target t) ++ labels sub) (labels t) := by
  intro t
  induction t using Tree.strongInd with
  | _ t ih =>
    intro target hnd hm hr
    cases t with
    | mk i s cs =>
      have hir : i ≠ target := fun h => hr (by simp [h])
      cases cs with
      | none =>
        rw [ids_eq] at hm
        simp at hm
        exact absurd (by simp [hm] : target = (Tree.mk i s none).id) hr
      | some l =>
        have hndl : (idsL l).Nodup := by
          simpa using (nodup_childList hnd).2
        by_cases hdirect : ∃ c ∈ l, c.id = target
        · obtain ⟨c₀, hc₀, hc₀id⟩ := hdirect
          have ht' : applyAt (removedOp target) target (Tree.mk i s (some l)) =
              Tree.mk i s (some (removedOp target l)) :=
            applyAt_hit hnd ⟨c₀, hc₀, hc₀id⟩
          rcases findIdx?_id_some ⟨c₀, hc₀, hc₀id⟩ with ⟨n, hfind, hlt, hgetid⟩
          have hop : removedOp target l = l.take n ++ l.drop (n + 1) := by
            rw [removedOp, hfind]
          have hdec : l = l.take n ++ l.getD n dTree :: l.drop (n + 1) :=
            list_decomp1 l dTree hlt
          have htin : target ∈ ids (l.getD n dTree) := by
            rw [← hgetid]; exact id_mem_ids _
          have hdisj := split_disjoint_of_nodup hndl hdec target htin
          have hu : findParent target (Tree.mk i s (some l)) =
              some (Tree.mk i s (some l)) := by
            rw [findParent, preNodes_eq]
            exact List.find?_cons_of_pos _ (by
              rw [Tree.childList_mk_some, List.any_eq_true]
              exact ⟨c₀, hc₀, by simp [hc₀id]⟩)
          have hsub : findNode target (Tree.mk i s (some l)) = some (l.getD n dTree) := by
            rw [findNode, preNodes_eq, List.find?_cons_of_neg _ (by simpa using hir),
              Tree.childList_mk_some]
            conv_lhs => rw [hdec]
            rw [preNodesL_append, preNodesL_cons, List.find?_append, List.find?_append,
              find?_id_none_forest hdisj.1]
            have hmid : (preNodes (l.getD n dTree)).find? (fun u => u.id == target) =
                some (l.getD n dTree) := by
              rw [preNodes_eq]
              exact List.find?_cons_of_pos _ (by simpa using hgetid)
            rw [hmid]
            rfl
          have hv : findNode (Tree.mk i s (some l)).id
              (Tree.mk i s (some (removedOp target l))) =
              some (Tree.mk i s (some (removedOp target l))) := by
            rw [findNode, preNodes_eq]
            exact List.find?_cons_of_pos _ (by simp)
          refine ⟨Tree.mk i s (some l), Tree.mk i s (some (removedOp target l)),
            l.getD n dTree, hu, hsub, by rw [ht']; exact hv, rfl, rfl, ?_, ?_, ?_⟩
          · rw [childIds, Tree.childList_mk_some]
            exact List.mem_map.mpr ⟨c₀, hc₀, hc₀id⟩
          · rw [childIds, childIds, Tree.childList_mk_some, Tree.childList_mk_some, hop,
              erase_eq_take_drop (by rw [findIdx?_ids_eq]; exact hfind)]
            simp [List.map_take, List.map_drop]
          · rw [ht']
            simp only [labels_eq, Tree.childList_mk_some, Tree.id_mk, Tree.text_mk]
            rw [hop, labelsL_append]
            conv_rhs => rw [hdec]
            rw [labelsL_append, labelsL_cons]
            rw [List.cons_append]
            refine List.Perm.cons _ ?_
            have hc : List.Perm
                (labelsL (l.drop (n + 1)) ++ labels (l.getD n dTree))
                (labels (l.getD n dTree) ++ labelsL (l.drop (n + 1))) :=
              List.perm_append_comm
            have := List.Perm.append_left (labelsL (l.take n)) hc
            simpa [List.append_assoc] using this
        · push_neg at hdirect
          rcases deep_split hnd hm hr hdirect with ⟨l₁, cm, l₂, hsplit, hin, hneq, h₁, h₂⟩
          have hcm_mem : cm ∈ l :=
            hsplit ▸ List.mem_append.mpr (Or.inr (List.mem_cons_self cm l₂))
          rcases ih cm (by simpa using hcm_mem) target
            (nodup_of_mem_forest hndl hcm_mem) hin (fun h => hneq h) with
            ⟨u, v, sub, hu, hsubf, hv, hid, htext, hmemc, hchild, hperm⟩
          have ht' : applyAt (removedOp target) target (Tree.mk i s (some l)) =
              Tree.mk i s (some (l₁ ++ applyAt (removedOp target) target cm :: l₂)) :=
            applyAt_deep_split hdirect hsplit h₁ h₂
          have hroot : ∀ d ∈ l₁ ++ cm :: l₂, d.id ≠ target := fun d hd => hdirect d (hsplit ▸ hd)
          have huid_cm : u.id ∈ ids cm :=
            mem_ids_iff.mpr ⟨u, (findParent_some_spec hu).1, rfl⟩
          have huid_disj := split_disjoint_of_nodup hndl hsplit u.id huid_cm
          have huid_ne_i : u.id ≠ i := by
            intro h
            exact (nodup_childList hnd).1 (by
              simpa using (h ▸ ids_mem_of_split hsplit huid_cm))
          refine ⟨u, v, sub, ?_, ?_, ?_, hid, htext, hmemc, hchild, ?_⟩
          · rw [show findParent target (Tree.mk i s (some l)) =
                findParent target (Tree.mk i s (some (l₁ ++ cm :: l₂))) by rw [← hsplit]]
            exact findParent_deep_some hroot h₁ hu
          · rw [show findNode target (Tree.mk i s (some l)) =
                findNode target (Tree.mk i s (some (l₁ ++ cm :: l₂))) by rw [← hsplit]]
            exact findNode_deep_some (fun h => hir h.symm) h₁ hsubf
          · rw [ht']
            exact findNode_deep_some huid_ne_i huid_disj.1 hv
          · rw [ht']
            simp only [labels_eq, Tree.childList_mk_some, Tree.id_mk, Tree.text_mk]
            rw [hsplit, labelsL_append, labelsL_append, labelsL_cons, labelsL_cons,
              List.cons_append]
            refine List.Perm.cons _ ?_
            have hmain : List.Perm
                ((labels (applyAt (removedOp target) target cm) ++ labelsL l₂) ++ labels sub)
                (labels cm ++ labelsL l₂) := by
              have h1 : List.Perm
                  ((labels (applyAt (removedOp target) target cm) ++ labelsL l₂) ++ labels sub)
                  (labels (applyAt (removedOp target) target cm) ++
                    (labels sub ++ labelsL l₂)) := by
                rw [List.append_assoc]
                exact List.Perm.append_left _ List.perm_append_comm
              have h2 : List.Perm
                  (labels (applyAt (removedOp target) target cm) ++ (labels sub ++ labelsL l₂))
                  ((labels (applyAt (removedOp target) target cm) ++ labels sub) ++ labelsL l₂) := by
                rw [List.append_assoc]
              exact (h1.trans h2).trans (hperm.append_right (labelsL l₂))
            have := List.Perm.append_left (labelsL l₁) hmain
            simpa [List.append_assoc] using this

/-! ## Master lemma for the MOVE_UP command -/

theorem master_moveUp : ∀ (t : Tree) (target : String),
    (ids t).Nodup → target ∈ ids t → target ≠ t.id →
    ∃ u n, findParent target t = some u ∧
      List.findIdx? (fun e => e.id == target) u.childList = some n ∧
      n < u.childList.length ∧
      (n = 0 → applyAt (moveUpOp target) target t = t) ∧
      (∀ m, n = m + 1 →
        ∃ v, findNode u.id (applyAt (moveUpOp target) target t) = some v ∧
          v.id = u.id ∧ v.text = u.text ∧
          childIds v = swapIds m (childIds u) ∧
          List.Perm (labels (applyAt (moveUpOp target) target t)) (labels t)) := by
  intro t
  induction t using Tree.strongInd with
  | _ t ih =>
    intro target hnd hm hr
    cases t with
    | mk i s cs =>
      have hir : i ≠ target := fun h => hr (by simp [h])
      cases cs with
      | none =>
        rw [ids_eq] at hm
        simp at hm
        exact absurd (by simp [hm] : target = (Tree.mk i s none).id) hr
      | some l =>
        have hndl : (idsL l).Nodup := by
          simpa using (nodup_childList hnd).2
        by_cases hdirect : ∃ c ∈ l, c.id = target
        · obtain ⟨c₀, hc₀, hc₀id⟩ := hdirect
          have ht' : applyAt (moveUpOp target) target (Tree.mk i s (some l)) =
              Tree.mk i s (some (moveUpOp target l)) :=
            applyAt_hit hnd ⟨c₀, hc₀, hc₀id⟩
          rcases findIdx?_id_some ⟨c₀, hc₀, hc₀id⟩ with ⟨n, hfind, hlt, hgetid⟩
          have hu : findParent target (Tree.mk i s (some l)) =
              some (Tree.mk i s (some l)) := by
            rw [findParent, preNodes_eq]
            exact List.find?_cons_of_pos _ (by
              rw [Tree.childList_mk_some, List.any_eq_true]
              exact ⟨c₀, hc₀, by simp [hc₀id]⟩)
          refine ⟨Tree.mk i s (some l), n, hu, by simpa using hfind, by simpa using hlt,
            ?_, ?_⟩
          · intro hn0
            subst hn0
            have hop : moveUpOp target l = l := by
              rw [moveUpOp, hfind]
            rw [ht', hop]
          · intro m hnm
            subst hnm
            have hm1 : m + 1 < l.length := hlt
            have hop : moveUpOp target l =
                l.take m ++ [l.getD (m + 1) dTree, l.getD m dTree] ++ l.drop (m + 2) := by
              rw [moveUpOp, hfind]
            refine ⟨Tree.mk i s (some (moveUpOp target l)), ?_, rfl, rfl, ?_, ?_⟩
            · rw [ht', findNode, preNodes_eq]
              exact List.find?_cons_of_pos _ (by simp)
            · rw [childIds, childIds, Tree.childList_mk_some, Tree.childList_mk_some,
                hop, swapIds]
              simp only [List.map_append, List.map_take, List.map_drop, List.map_cons,
                List.map_nil, getD_map_id]
            · rw [ht']
              simp only [labels_eq, Tree.childList_mk_some, Tree.id_mk, Tree.text_mk]
              rw [hop, labelsL_append, labelsL_append]
              conv_rhs => rw [list_decomp2 l dTree hm1]
              rw [labelsL_append, labelsL_append]
              refine List.Perm.cons _ ?_
              apply List.Perm.append_right
              apply List.Perm.append_left
              have : labelsL [l.getD (m + 1) dTree, l.getD m dTree] =
                  labels (l.getD (m + 1) dTree) ++ labels (l.getD m dTree) := by
                rw [labelsL_cons, labelsL_cons, labelsL_nil, List.append_nil]
              rw [this]
              have h2 : labelsL [l.getD m dTree, l.getD (m + 1) dTree] =
                  labels (l.getD m dTree) ++ labels (l.getD (m + 1) dTree) := by
                rw [labelsL_cons, labelsL_cons, labelsL_nil, List.append_nil]
              rw [h2]
              exact List.perm_append_comm
        · push_neg at hdirect
          rcases deep_split hnd hm hr hdirect with ⟨l₁, cm, l₂, hsplit, hin, hneq, h₁, h₂⟩
          have hcm_mem : cm ∈ l :=
            hsplit ▸ List.mem_append.mpr (Or.inr (List.mem_cons_self cm l₂))
          rcases ih cm (by simpa using hcm_mem) target
            (nodup_of_mem_forest hndl hcm_mem) hin (fun h => hneq h) with
            ⟨u, n, hu, hidx, hlen, hzero, hpos⟩
          have ht' : applyAt (moveUpOp target) target (Tree.mk i s (some l)) =
              Tree.mk i s (some (l₁ ++ applyAt (moveUpOp target) target cm :: l₂)) :=
            applyAt_deep_split hdirect hsplit h₁ h₂
          have hroot : ∀ d ∈ l₁ ++ cm :: l₂, d.id ≠ target := fun d hd => hdirect d (hsplit ▸ hd)
          have huid_cm : u.id ∈ ids cm :=
            mem_ids_iff.mpr ⟨u, (findParent_some_spec hu).1, rfl⟩
          have huid_disj := split_disjoint_of_nodup hndl hsplit u.id huid_cm
          have huid_ne_i : u.id ≠ i := by
            intro h
            exact (nodup_childList hnd).1 (by
              simpa using (h ▸ ids_mem_of_split hsplit huid_cm))
          refine ⟨u, n, ?_, hidx, hlen, ?_, ?_⟩
          · rw [show findParent target (Tree.mk i s (some l)) =
                findParent target (Tree.mk i s (some (l₁ ++ cm :: l₂))) by rw [← hsplit]]
            exact findParent_deep_some hroot h₁ hu
          · intro hn0
            rw [ht', hzero hn0, ← hsplit]
          · intro m hnm
            rcases hpos m hnm with ⟨v, hv, hvid, hvtext, hvchild, hvperm⟩
            refine ⟨v, ?_, hvid, hvtext, hvchild, ?_⟩
            · rw [ht']
              exact findNode_deep_some huid_ne_i huid_disj.1 hv
            · rw [ht']
              simp only [labels_eq, Tree.childList_mk_some, Tree.id_mk, Tree.text_mk]
              rw [hsplit, labelsL_append, labelsL_append, labelsL_cons, labelsL_cons]
              refine List.Perm.cons _ ?_
              apply List.Perm.append_left
              exact List.Perm.append_right _ hvperm

/-! ## Master lemma for the MOVE_DOWN command -/

theorem master_moveDown : ∀ (t : Tree) (target : String),
    (ids t).Nodup → target ∈ ids t → target ≠ t.id →
    ∃ u n, findParent target t = some u ∧
      List.findIdx? (fun e => e.id == target) u.childList = some n ∧
      n < u.childList.length ∧
      (n = u.childList.length - 1 → applyAt (moveDownOp target) target t = t) ∧
      (n ≠ u.childList.length - 1 →
        ∃ v, findNode u.id (applyAt (moveDownOp target) target t) = some v ∧
          v.id = u.id ∧ v.text = u.text ∧
          childIds v = swapIds n (childIds u) ∧
          List.Perm (labels (applyAt (moveDownOp target) target t)) (labels t)) := by
  intro t
  induction t using Tree.strongInd with
  | _ t ih =>
    intro target hnd hm hr
    cases t with
    | mk i s cs =>
      have hir : i ≠ target := fun h => hr (by simp [h])
      cases cs with
      | none =>
        rw [ids_eq] at hm
        simp at hm
        exact absurd (by simp [hm] : target = (Tree.mk i s none).id) hr
      | some l =>
        have hndl : (idsL l).Nodup := by
          simpa using (nodup_childList hnd).2
        by_cases hdirect : ∃ c ∈ l, c.id = target
        · obtain ⟨c₀, hc₀, hc₀id⟩ := hdirect
          have ht' : applyAt (moveDownOp target) target (Tree.mk i s (some l)) =
              Tree.mk i s (some (moveDownOp target l)) :=
            applyAt_hit hnd ⟨c₀, hc₀, hc₀id⟩
          rcases findIdx?_id_some ⟨c₀, hc₀, hc₀id⟩ with ⟨n, hfind, hlt, hgetid⟩
          have hu : findParent target (Tree.mk i s (some l)) =
              some (Tree.mk i s (some l)) := by
            rw [findParent, preNodes_eq]
            exact List.find?_cons_of_pos _ (by
              rw [Tree.childList_mk_some, List.any_eq_true]
              exact ⟨c₀, hc₀, by simp [hc₀id]⟩)
          refine ⟨Tree.mk i s (some l), n, hu, by simpa using hfind, by simpa using hlt,
            ?_, ?_⟩
          · intro hlast
            rw [Tree.childList_mk_some] at hlast
            have hop : moveDownOp target l = l := by
              rw [moveDownOp, hfind]
              exact if_pos hlast
            rw [ht', hop]
          · intro hlast
            rw [Tree.childList_mk_some] at hlast
            have hm1 : n + 1 < l.length := by
              rcases Nat.lt_or_ge (n + 1) l.length with h | h
              · exact h
              · exact absurd (by omega : n = l.length - 1) hlast
            have hop : moveDownOp target l =
                l.take n ++ [l.getD (n + 1) dTree, l.getD n dTree] ++ l.drop (n + 2) := by
              rw [moveDownOp, hfind]
              exact if_neg hlast
            refine ⟨Tree.mk i s (some (moveDownOp target l)), ?_, rfl, rfl, ?_, ?_⟩
            · rw [ht', findNode, preNodes_eq]
              exact List.find?_cons_of_pos _ (by simp)
            · rw [childIds, childIds, Tree.childList_mk_some, Tree.childList_mk_some,
                hop, swapIds]
              simp only [List.map_append, List.map_take, List.map_drop, List.map_cons,
                List.map_nil, getD_map_id]
            · rw [ht']
              simp only [labels_eq, Tree.childList_mk_some, Tree.id_mk, Tree.text_mk]
              rw [hop, labelsL_append, labelsL_append]
              conv_rhs => rw [list_decomp2 l dTree hm1]
              rw [labelsL_append, labelsL_append]
              refine List.Perm.cons _ ?_
              apply List.Perm.append_right
              apply List.Perm.append_left
              have h1 : labelsL [l.getD (n + 1) dTree, l.getD n dTree] =
                  labels (l.getD (n + 1) dTree) ++ labels (l.getD n dTree) := by
                rw [labelsL_cons, labelsL_cons, labelsL_nil, List.append_nil]
              have h2 : labelsL [l.getD n dTree, l.getD (n + 1) dTree] =
                  labels (l.getD n dTree) ++ labels (l.getD (n + 1) dTree) := by
                rw [labelsL_cons, labelsL_cons, labelsL_nil, List.append_nil]
              rw [h1, h2]
              exact List.perm_append_comm
        · push_neg at hdirect
          rcases deep_split hnd hm hr hdirect with ⟨l₁, cm, l₂, hsplit, hin, hneq, h₁, h₂⟩
          have hcm_mem : cm ∈ l :=
            hsplit ▸ List.mem_append.mpr (Or.inr (List.mem_cons_self cm l₂))
          rcases ih cm (by simpa using hcm_mem) target
            (nodup_of_mem_forest hndl hcm_mem) hin (fun h => hneq h) with
            ⟨u, n, hu, hidx, hlen, hlast, hpos⟩
          have ht' : applyAt (moveDownOp target) target (Tree.mk i s (some l)) =
              Tree.mk i s (some (l₁ ++ applyAt (moveDownOp target) target cm :: l₂)) :=
            applyAt_deep_split hdirect hsplit h₁ h₂
          have hroot : ∀ d ∈ l₁ ++ cm :: l₂, d.id ≠ target := fun d hd => hdirect d (hsplit ▸ hd)
          have huid_cm : u.id ∈ ids cm :=
            mem_ids_iff.mpr ⟨u, (findParent_some_spec hu).1, rfl⟩
          have huid_disj := split_disjoint_of_nodup hndl hsplit u.id huid_cm
          have huid_ne_i : u.id ≠ i := by
            intro h
            exact (nodup_childList hnd).1 (by
              simpa using (h ▸ ids_mem_of_split hsplit huid_cm))
          refine ⟨u, n, ?_, hidx, hlen, ?_, ?_⟩
          · rw [show findParent target (Tree.mk i s (some l)) =
                findParent target (Tree.mk i s (some (l₁ ++ cm :: l₂))) by rw [← hsplit]]
            exact findParent_deep_some hroot h₁ hu
          · intro hn
            rw [ht', hlast hn, ← hsplit]
          · intro hn
            rcases hpos hn with ⟨v, hv, hvid, hvtext, hvchild, hvperm⟩
            refine ⟨v, ?_, hvid, hvtext, hvchild, ?_⟩
            · rw [ht']
              exact findNode_deep_some huid_ne_i huid_disj.1 hv
            · rw [ht']
              simp only [labels_eq, Tree.childList_mk_some, Tree.id_mk, Tree.text_mk]
              rw [hsplit, labelsL_append, labelsL_append, labelsL_cons, labelsL_cons]
              refine List.Perm.cons _ ?_
              apply List.Perm.append_left
              exact List.Perm.append_right _ hvperm

/-! ## Lemmas about the TEXT_CHANGED traversal -/

theorem updateTreeL_eq_map (target : String) (f : Tree → Tree) (cs : List Tree) :
    updateTreeL target f cs = cs.map (updateTree target f) := by
  induction cs with
  | nil => rfl
  | cons c cs ih => simp [updateTreeL, ih]

theorem updateTree_no_match {target : String} {f : Tree → Tree} {t : Tree}
    (h : target ∉ ids t) : updateTree target f t = t := by
  induction t using Tree.strongInd with
  | _ t ih =>
    cases t with
    | mk i s cs =>
      rw [ids_eq] at h
      have hne : (i == target) = false := by
        simp only [beq_eq_false_iff_ne, ne_eq]
        intro heq
        exact h (by simp [heq])
      cases cs with
      | none => simp [updateTree, hne]
      | some l =>
        rw [updateTree]
        simp only [hne, Bool.false_eq_true, if_neg, ite_false]
        rw [updateTreeL_eq_map]
        have : l.map (updateTree target f) = l := by
          apply map_eq_self_of
          intro c hc
          apply ih c (by simpa using hc)
          intro hmem
          exact h (List.mem_cons_of_mem _ (by
            simpa using ids_sub_of_mem (by simpa using hc) hmem))
        rw [this]
        rfl

/-- Pre-order labels after `updateTree` with a children-preserving
transform: every node whose id matches the target carries the transformed
label, all other nodes are untouched, and the pre-order position of every
node is preserved. -/
theorem updateTree_labels (target : String) (f : Tree → Tree)
    (hf : ∀ u, (f u).children = u.children) : ∀ t : Tree,
    (preNodes (updateTree target f t)).map (fun u => (u.id, u.text)) =
      (preNodes t).map (fun u =>
        if u.id = target then ((f u).id, (f u).text) else (u.id, u.text)) := by
  intro t
  induction t using Tree.strongInd with
  | _ t ih =>
    cases t with
    | mk i s cs =>
      have hkey : ∀ l : List Tree, (∀ c ∈ l,
          (preNodes (updateTree target f c)).map (fun u => (u.id, u.text)) =
            (preNodes c).map (fun u =>
              if u.id = target then ((f u).id, (f u).text) else (u.id, u.text))) →
          (preNodesL (updateTreeL target f l)).map (fun u => (u.id, u.text)) =
            (preNodesL l).map (fun u =>
              if u.id = target then ((f u).id, (f u).text) else (u.id, u.text)) := by
        intro l hl
        induction l with
        | nil => rfl
        | cons c l ihl =>
          rw [updateTreeL, preNodesL_cons, preNodesL_cons, List.map_append, List.map_append,
            hl c (List.mem_cons_self c l), ihl (fun d hd => hl d (List.mem_cons_of_mem _ hd))]
      cases cs with
      | none =>
        by_cases hit : i = target
        · subst hit
          have hup : updateTree i f (Tree.mk i s none) = f (Tree.mk i s none) := by
            rw [updateTree]
            simp
          rw [hup]
          have hch : (f (Tree.mk i s none)).children = none := by
            rw [hf]; rfl
          cases hfe : f (Tree.mk i s none) with
          | mk i' s' cs' =>
            rw [hfe] at hch
            simp only [Tree.children_mk] at hch
            subst hch
            simp [preNodes, hfe]
        · have : updateTree target f (Tree.mk i s none) = Tree.mk i s none := by
            rw [updateTree]
            simp [hit]
          rw [this]
          simp [preNodes, hit]
      | some l =>
        have hstep := hkey l (fun c hc => ih c (by simpa using hc))
        by_cases hit : i = target
        · have hch : (f (Tree.mk i s (some l))).children = some l := by
            rw [hf]; rfl
          have : updateTree target f (Tree.mk i s (some l)) =
              Tree.mk (f (Tree.mk i s (some l))).id (f (Tree.mk i s (some l))).text
                (some (updateTreeL target f l)) := by
            rw [updateTree]
            simp [hit]
          rw [this, preNodes_eq, preNodes_eq]
          simp only [Tree.childList_mk_some, List.map_cons, Tree.id_mk, Tree.text_mk, hstep]
          simp [hit]
        · have : updateTree target f (Tree.mk i s (some l)) =
              Tree.mk i s (some (updateTreeL target f l)) := by
            rw [updateTree]
            simp [hit]
          rw [this, preNodes_eq, preNodes_eq]
          simp only [Tree.childList_mk_some, List.map_cons, Tree.id_mk, Tree.text_mk, hstep]
          simp [hit]

/-- Pre-order observation of the rename instance (the TEXT_CHANGED
callback `tree => { tree.text = text }`): ids, texts and child-id lists
position by position. -/
theorem rename_obs (target newText : String) : ∀ t : Tree,
    (preNodes (updateTree target (fun u => Tree.mk u.id newText u.children) t)).map
        (fun u => (u.id, u.text, childIds u)) =
      (preNodes t).map (fun u =>
        (u.id, if u.id = target then newText else u.text, childIds u)) := by
  intro t
  induction t using Tree.strongInd with
  | _ t ih =>
    cases t with
    | mk i s cs =>
      have hkey : ∀ l : List Tree, (∀ c ∈ l,
          (preNodes (updateTree target (fun u => Tree.mk u.id newText u.children) c)).map
              (fun u => (u.id, u.text, childIds u)) =
            (preNodes c).map (fun u =>
              (u.id, if u.id = target then newText else u.text, childIds u))) →
          (preNodesL (updateTreeL target (fun u => Tree.mk u.id newText u.children) l)).map
              (fun u => (u.id, u.text, childIds u)) =
            (preNodesL l).map (fun u =>
              (u.id, if u.id = target then newText else u.text, childIds u)) := by
        intro l hl
        induction l with
        | nil => rfl
        | cons c l ihl =>
          rw [updateTreeL, preNodesL_cons, preNodesL_cons, List.map_append, List.map_append,
            hl c (List.mem_cons_self c l), ihl (fun d hd => hl d (List.mem_cons_of_mem _ hd))]
      have hchildIds : ∀ l : List Tree,
          (updateTreeL target (fun u => Tree.mk u.id newText u.children) l).map Tree.id =
            l.map Tree.id := by
        intro l
        induction l with
        | nil => rfl
        | cons c l ihl =>
          rw [updateTreeL, List.map_cons, List.map_cons, ihl]
          congr 1
          cases c with
          | mk ci cstext ccs =>
            cases ccs with
            | none => by_cases h : (ci == target) = true <;> simp [updateTree, h]
            | some lc => by_cases h : (ci == target) = true <;> simp [updateTree, h]
      cases cs with
      | none =>
        rw [updateTree]
        by_cases hit : i = target <;> simp [preNodes, childIds, hit]
      | some l =>
        have hstep := hkey l (fun c hc => ih c (by simpa using hc))
        rw [updateTree]
        by_cases hit : i = target
        · simp only [hit, beq_self_eq_true, if_pos, ite_true, Tree.id_mk, Tree.text_mk]
          rw [preNodes_eq, preNodes_eq]
          simp only [Tree.childList_mk_some, List.map_cons, hstep]
          simp [childIds, hchildIds l, hit]
        · simp only [beq_iff_eq, hit, ite_false]
          rw [preNodes_eq, preNodes_eq]
          simp only [Tree.childList_mk_some, List.map_cons, hstep]
          simp [childIds, hchildIds l, hit]

/-- Transfers a positionwise observation equality through `find?`. -/
theorem find?_map_corr {α β : Type} {g1 g2 : α → β} {p : β → Bool}
    {la lb : List α} (h : la.map g1 = lb.map g2) :
    (la.find? (fun a => p (g1 a))).map g1 = (lb.find? (fun a => p (g2 a))).map g2 := by
  induction la generalizing lb with
  | nil =>
    cases lb with
    | nil => rfl
    | cons b lb => simp at h
  | cons a la ih =>
    cases lb with
    | nil => simp at h
    | cons b lb =>
      simp only [List.map_cons, List.cons.injEq] at h
      obtain ⟨hab, hrest⟩ := h
      by_cases hp : p (g1 a) = true
      · rw [List.find?_cons_of_pos (p := fun x => p (g1 x)) la hp,
          List.find?_cons_of_pos (p := fun x => p (g2 x)) lb (by
            show p (g2 b) = true
            rw [← hab]; exact hp)]
        simp [hab]
      · rw [List.find?_cons_of_neg (p := fun x => p (g1 x)) la hp,
          List.find?_cons_of_neg (p := fun x => p (g2 x)) lb (by
            show ¬p (g2 b) = true
            rw [← hab]; exact hp)]
        exact ih hrest

/-! ## List computations on the swap surgery -/

theorem surgery_length {α : Type} (l : List α) (a b : α) {m : Nat} (h : m + 1 < l.length) :
    (l.take m ++ [a, b] ++ l.drop (m + 2)).length = l.length := by
  simp only [List.length_append, List.length_take, List.length_drop, List.length_cons,
    List.length_nil]
  omega

theorem surgery_getElem_lt {α : Type} (l : List α) (a b : α) {m j : Nat}
    (h : m + 1 < l.length) (hj : j < m) (hjl : j < l.length)
    {hb : j < (l.take m ++ [a, b] ++ l.drop (m + 2)).length} :
    (l.take m ++ [a, b] ++ l.drop (m + 2))[j] = l[j] := by
  have h1 : j < (l.take m ++ [a, b]).length := by
    simp only [List.length_append, List.length_take, List.length_cons, List.length_nil]
    omega
  have h2 : j < (l.take m).length := by
    simp only [List.length_take]
    omega
  rw [List.getElem_append_left h1, List.getElem_append_left h2, List.getElem_take]

theorem surgery_getElem_m {α : Type} (l : List α) (a b : α) {m : Nat}
    (h : m + 1 < l.length) {hb : m < (l.take m ++ [a, b] ++ l.drop (m + 2)).length} :
    (l.take m ++ [a, b] ++ l.drop (m + 2))[m] = a := by
  have h1 : m < (l.take m ++ [a, b]).length := by
    simp only [List.length_append, List.length_take, List.length_cons, List.length_nil]
    omega
  have h2 : (l.take m).length ≤ m := List.length_take_le m l
  rw [List.getElem_append_left h1, List.getElem_append_right h2]
  have h3 : m - m ⊓ l.length = 0 := by omega
  simp [h3]

theorem surgery_getElem_m1 {α : Type} (l : List α) (a b : α) {m : Nat}
    (h : m + 1 < l.length) {hb : m + 1 < (l.take m ++ [a, b] ++ l.drop (m + 2)).length} :
    (l.take m ++ [a, b] ++ l.drop (m + 2))[m + 1] = b := by
  have hlt : (l.take m).length = m := List.length_take_of_le (by omega : m ≤ l.length)
  have h1 : m + 1 < (l.take m ++ [a, b]).length := by
    simp only [List.length_append, List.length_cons, List.length_nil, hlt]
    omega
  have h2 : (l.take m).length ≤ m + 1 := by omega
  rw [List.getElem_append_left h1, List.getElem_append_right h2]
  have h3 : m + 1 - m ⊓ l.length = 1 := by omega
  simp [h3]

theorem findIdx?_swap {target : String} {cs : List Tree} {m : Nat}
    (hfind : List.findIdx? (fun e => e.id == target) cs = some (m + 1))
    (hm1 : m + 1 < cs.length) :
    List.findIdx? (fun e => e.id == target)
      (cs.take m ++ [cs.getD (m + 1) dTree, cs.getD m dTree] ++ cs.drop (m + 2)) = some m := by
  rcases List.findIdx?_eq_some_iff_getElem.mp hfind with ⟨hlt, hp, hprev⟩
  rw [List.findIdx?_eq_some_iff_getElem]
  have hlen := surgery_length cs (cs.getD (m + 1) dTree) (cs.getD m dTree) hm1
  refine ⟨by omega, ?_, ?_⟩
  · rw [surgery_getElem_m cs _ _ hm1]
    rw [getD_eq_getElem cs dTree hm1]
    exact hp
  · intro j hj
    rw [surgery_getElem_lt cs _ _ hm1 hj (by omega)]
    exact hprev j (by omega)

theorem moveUp_moveDown_cancel_list {target : String} {cs : List Tree} {m : Nat}
    (hfind : List.findIdx? (fun e => e.id == target) cs = some (m + 1))
    (hm1 : m + 1 < cs.length) :
    moveDownOp target (moveUpOp target cs) = cs := by
  have hop : moveUpOp target cs =
      cs.take m ++ [cs.getD (m + 1) dTree, cs.getD m dTree] ++ cs.drop (m + 2) := by
    rw [moveUpOp, hfind]
  set cs' := cs.take m ++ [cs.getD (m + 1) dTree, cs.getD m dTree] ++ cs.drop (m + 2) with hcs'
  have hlen : cs'.length = cs.length := surgery_length cs _ _ hm1
  have hfind' : List.findIdx? (fun e => e.id == target) cs' = some m :=
    findIdx?_swap hfind hm1
  have hstep : moveDownOp target cs' =
      cs'.take m ++ [cs'.getD (m + 1) dTree, cs'.getD m dTree] ++ cs'.drop (m + 2) := by
    rw [moveDownOp, hfind']
    exact if_neg (by omega : ¬m = cs'.length - 1)
  rw [hop, hstep]
  have htk : cs'.take m = cs.take m := by
    rw [hcs', List.take_append_eq_append_take, List.take_append_eq_append_take,
      List.take_take]
    have h1 : (cs.take m).length = m := List.length_take_of_le (by omega)
    simp [h1, Nat.min_self]
  have hdp : cs'.drop (m + 2) = cs.drop (m + 2) := by
    rw [hcs', List.drop_append_eq_append_drop, List.drop_append_eq_append_drop]
    have h1 : (cs.take m).length = m := List.length_take_of_le (by omega)
    have h2 : (cs.take m).drop (m + 2) = [] := by
      apply List.drop_eq_nil_of_le
      omega
    simp [h1, h2]
  have hgm : cs'.getD m dTree = cs.getD (m + 1) dTree := by
    rw [getD_eq_getElem _ _ (by omega : m < cs'.length)]
    exact surgery_getElem_m cs _ _ hm1
  have hgm1 : cs'.getD (m + 1) dTree = cs.getD m dTree := by
    rw [getD_eq_getElem _ _ (by omega : m + 1 < cs'.length)]
    exact surgery_getElem_m1 cs _ _ hm1
  rw [htk, hdp, hgm, hgm1]
  exact (list_decomp2 cs dTree hm1).symm

/-- MoveUp on a node that is not the first among its siblings, followed by
MoveDown on the same node, restores the tree exactly. -/
theorem master_cancel : ∀ (t : Tree) (target : String),
    (ids t).Nodup → target ∈ ids t → target ≠ t.id →
    siblingIdx target t ≠ some 0 →
    applyAt (moveDownOp target) target (applyAt (moveUpOp target) target t) = t := by
  intro t
  induction t using Tree.strongInd with
  | _ t ih =>
    intro target hnd hm hr hfirst
    cases t with
    | mk i s cs =>
      have hir : i ≠ target := fun h => hr (by simp [h])
      cases cs with
      | none =>
        rw [ids_eq] at hm
        simp at hm
        exact absurd (by simp [hm] : target = (Tree.mk i s none).id) hr
      | some l =>
        have hndl : (idsL l).Nodup := by
          simpa using (nodup_childList hnd).2
        by_cases hdirect : ∃ c ∈ l, c.id = target
        · obtain ⟨c₀, hc₀, hc₀id⟩ := hdirect
          have hu : findParent target (Tree.mk i s (some l)) =
              some (Tree.mk i s (some l)) := by
            rw [findParent, preNodes_eq]
            exact List.find?_cons_of_pos _ (by
              rw [Tree.childList_mk_some, List.any_eq_true]
              exact ⟨c₀, hc₀, by simp [hc₀id]⟩)
          rcases findIdx?_id_some ⟨c₀, hc₀, hc₀id⟩ with ⟨n, hfind, hlt, hgetid⟩
          have hn0 : n ≠ 0 := by
            intro h
            apply hfirst
            rw [siblingIdx, hu]
            simp only [Option.some_bind, Tree.childList_mk_some]
            rw [hfind, h]
          obtain ⟨m, rfl⟩ : ∃ m, n = m + 1 := ⟨n - 1, by omega⟩
          have ht₁ : applyAt (moveUpOp target) target (Tree.mk i s (some l)) =
              Tree.mk i s (some (moveUpOp target l)) :=
            applyAt_hit hnd ⟨c₀, hc₀, hc₀id⟩
          have hop : moveUpOp target l =
              l.take m ++ [l.getD (m + 1) dTree, l.getD m dTree] ++ l.drop (m + 2) := by
            rw [moveUpOp, hfind]
          -- the intermediate tree still has unique ids and still owns the target child
          have hpermL : List.Perm (idsL (moveUpOp target l)) (idsL l) := by
            rw [hop]
            conv_rhs => rw [list_decomp2 l dTree hlt]
            rw [idsL_append, idsL_append, idsL_append, idsL_append]
            apply List.Perm.append_right
            apply List.Perm.append_left
            rw [idsL_cons, idsL_cons, idsL_cons, idsL_cons, idsL_nil]
            have h1 : List.Perm (ids (l.getD (m + 1) dTree) ++ ids (l.getD m dTree))
                (ids (l.getD m dTree) ++ ids (l.getD (m + 1) dTree)) :=
              List.perm_append_comm
            simpa [List.append_assoc] using h1
          have hnd₁ : (ids (Tree.mk i s (some (moveUpOp target l)))).Nodup := by
            rw [ids_eq, Tree.childList_mk_some]
            rw [ids_eq, Tree.childList_mk_some] at hnd
            rw [List.nodup_cons] at hnd ⊢
            exact ⟨fun h => hnd.1 (hpermL.mem_iff.mp h), hpermL.nodup_iff.mpr hnd.2⟩
          have hc₀' : c₀ ∈ moveUpOp target l := by
            rw [hop]
            have : c₀ = l.getD (m + 1) dTree := by
              have := getD_eq_getElem l dTree hlt
              rcases List.findIdx?_eq_some_iff_getElem.mp hfind with ⟨hlt', hp, hprev⟩
              -- c₀ and the element at the found index share the id target
              have hc₀id' : (l.getD (m + 1) dTree).id = target := by
                rw [getD_eq_getElem l dTree hlt]
                simpa using hp
              have hcmem : l.getD (m + 1) dTree ∈ l := by
                rw [getD_eq_getElem l dTree hlt]
                exact List.getElem_mem _
              have hinj : c₀ = l.getD (m + 1) dTree := by
                have hndmap : (l.map Tree.id).Nodup := childIds_nodup_of hndl
                have := List.inj_on_of_nodup_map hndmap hc₀ hcmem
                exact this (by rw [hc₀id, hc₀id'])
              exact hinj
            rw [this]
            exact List.mem_append.mpr (Or.inl (List.mem_append.mpr (Or.inr
              (List.mem_cons_self _ _))))
          have ht₂ : applyAt (moveDownOp target) target
              (Tree.mk i s (some (moveUpOp target l))) =
              Tree.mk i s (some (moveDownOp target (moveUpOp target l))) :=
            applyAt_hit hnd₁ ⟨c₀, hc₀', hc₀id⟩
          rw [ht₁, ht₂, moveUp_moveDown_cancel_list hfind hlt]
        · push_neg at hdirect
          rcases deep_split hnd hm hr hdirect with ⟨l₁, cm, l₂, hsplit, hin, hneq, h₁, h₂⟩
          have hcm_mem : cm ∈ l :=
            hsplit ▸ List.mem_append.mpr (Or.inr (List.mem_cons_self cm l₂))
          have hndcm : (ids cm).Nodup := nodup_of_mem_forest hndl hcm_mem
          have ht₁ : applyAt (moveUpOp target) target (Tree.mk i s (some l)) =
              Tree.mk i s (some (l₁ ++ applyAt (moveUpOp target) target cm :: l₂)) :=
            applyAt_deep_split hdirect hsplit h₁ h₂
          have hroot : ∀ d ∈ l₁ ++ cm :: l₂, d.id ≠ target := fun d hd => hdirect d (hsplit ▸ hd)
          -- the hypothesis about the sibling index transfers to the subtree
          have hsame : siblingIdx target (Tree.mk i s (some l)) = siblingIdx target cm := by
            rcases findParent_isSome hin (fun h => hneq h) with ⟨u, hu⟩
            have : findParent target (Tree.mk i s (some l)) = some u := by
              rw [show findParent target (Tree.mk i s (some l)) =
                  findParent target (Tree.mk i s (some (l₁ ++ cm :: l₂))) by rw [← hsplit]]
              exact findParent_deep_some hroot h₁ hu
            rw [siblingIdx, siblingIdx, this, hu]
          have hcancel : applyAt (moveDownOp target) target
              (applyAt (moveUpOp target) target cm) = cm :=
            ih cm (by simpa using hcm_mem) target hndcm hin (fun h => hneq h)
              (by rw [← hsame]; exact hfirst)
          have hroot' : ∀ d ∈ l₁ ++ applyAt (moveUpOp target) target cm :: l₂,
              d.id ≠ target := by
            intro d hd
            rcases List.mem_append.mp hd with h | h
            · exact hroot d (List.mem_append.mpr (Or.inl h))
            · rcases List.mem_cons.mp h with rfl | h'
              · rw [applyAt_id]
                exact hroot cm (List.mem_append.mpr (Or.inr (List.mem_cons_self cm l₂)))
              · exact hroot d (List.mem_append.mpr (Or.inr (List.mem_cons_of_mem _ h')))
          have ht₂ : applyAt (moveDownOp target) target
              (Tree.mk i s (some (l₁ ++ applyAt (moveUpOp target) target cm :: l₂))) =
              Tree.mk i s (some (l₁ ++ applyAt (moveDownOp target) target
                (applyAt (moveUpOp target) target cm) :: l₂)) :=
            applyAt_deep_split hroot' rfl h₁ h₂
          rw [ht₁, ht₂, hcancel, ← hsplit]

/-! ## Helpers about the spec-side list descriptions -/

theorem swapIds_length {xs : List String} {m : Nat} (h : m + 1 < xs.length) :
    (swapIds m xs).length = xs.length :=
  surgery_length xs _ _ h

theorem swapIds_ne {xs : List String} {m : Nat} (hnd : xs.Nodup) (h : m + 1 < xs.length) :
    swapIds m xs ≠ xs := by
  intro heq
  have h1 : (swapIds m xs).getD m "" = xs.getD (m + 1) "" := by
    show (xs.take m ++ [xs.getD (m + 1) "", xs.getD m ""] ++ xs.drop (m + 2)).getD m "" =
      xs.getD (m + 1) ""
    rw [getD_eq_getElem _ _ (by rw [surgery_length xs _ _ h]; omega)]
    exact surgery_getElem_m xs _ _ h
  rw [heq, getD_eq_getElem _ _ (by omega : m < xs.length),
    getD_eq_getElem _ _ h] at h1
  have h2 := (List.Nodup.getElem_inj_iff hnd).mp h1
  omega

theorem insertAfterId_length {a b : String} {xs : List String} (h : a ∈ xs) :
    (insertAfterId a b xs).length = xs.length + 1 := by
  have hex : ∃ x, x ∈ xs ∧ (fun x => x == a) x := ⟨a, h, by simp⟩
  have hfind := List.findIdx?_eq_some_of_exists hex
  rw [insertAfterId, hfind]
  rcases List.findIdx?_eq_some_iff_getElem.mp hfind with ⟨hlt, _, _⟩
  simp only [List.length_append, List.length_take, List.length_cons, List.length_drop]
  omega

/-! ## Projecting label permutations onto ids -/

theorem labels_perm_ids {t t' : Tree} (h : List.Perm (labels t') (labels t)) :
    List.Perm (ids t') (ids t) := by
  rw [ids_eq_labels_fst, ids_eq_labels_fst]
  exact h.map Prod.fst

theorem labels_perm_cons_ids {t t' : Tree} {nid : String}
    (h : List.Perm (labels t') ((nid, "") :: labels t)) :
    List.Perm (ids t') (nid :: ids t) := by
  rw [ids_eq_labels_fst, ids_eq_labels_fst]
  have h2 := h.map Prod.fst
  simpa using h2

theorem labels_append_perm_ids {t t' sub : Tree}
    (h : List.Perm (labels t' ++ labels sub) (labels t)) :
    List.Perm (ids t' ++ ids sub) (ids t) := by
  rw [ids_eq_labels_fst, ids_eq_labels_fst, ids_eq_labels_fst]
  have h2 := h.map Prod.fst
  simpa [List.map_append] using h2

theorem ids_rename (target newText : String) (t : Tree) :
    ids (updateTree target (fun u => Tree.mk u.id newText u.children) t) = ids t := by
  have h := rename_obs target newText t
  have h1 := congrArg (List.map (fun p : String × String × List String => p.1)) h
  rw [List.map_map, List.map_map] at h1
  exact h1

theorem applyAt_root_no_match {op : List Tree → List Tree} {t : Tree}
    (hnd : (ids t).Nodup) : applyAt op t.id t = t :=
  applyAt_no_match (nodup_childList hnd).1

/-! ## Every reducer step keeps ids unique and only ever adds the fresh id -/

theorem reducer_ids_step (nid : String) (d : Data) (a : Action)
    (hnd : (ids d.tree).Nodup) (hfresh : nid ∉ ids d.tree) :
    (ids (reducer nid d a).tree).Nodup ∧
      ∀ x ∈ ids (reducer nid d a).tree, x ∈ ids d.tree ∨ (x = nid ∧ nextIdx a 0 = 1) := by
  cases a with
  | textChanged target text =>
    simp only [reducer]
    rw [ids_rename]
    exact ⟨hnd, fun x hx => Or.inl hx⟩
  | moveUp target =>
    simp only [reducer]
    by_cases hmem : target ∈ ids d.tree
    · by_cases hroot : target = d.tree.id
      · rw [hroot, applyAt_root_no_match hnd]
        exact ⟨hnd, fun x hx => Or.inl hx⟩
      · rcases master_moveUp d.tree target hnd hmem hroot with ⟨u, n, _, _, _, hzero, hpos⟩
        cases n with
        | zero =>
          rw [hzero rfl]
          exact ⟨hnd, fun x hx => Or.inl hx⟩
        | succ m =>
          rcases hpos m rfl with ⟨v, _, _, _, _, hperm⟩
          have hip := labels_perm_ids hperm
          exact ⟨hip.nodup_iff.mpr hnd, fun x hx => Or.inl (hip.mem_iff.mp hx)⟩
    · rw [applyAt_no_match (fun h => hmem ((subIds_sub_ids _) h))]
      exact ⟨hnd, fun x hx => Or.inl hx⟩
  | moveDown target =>
    simp only [reducer]
    by_cases hmem : target ∈ ids d.tree
    · by_cases hroot : target = d.tree.id
      · rw [hroot, applyAt_root_no_match hnd]
        exact ⟨hnd, fun x hx => Or.inl hx⟩
      · rcases master_moveDown d.tree target hnd hmem hroot with ⟨u, n, _, _, _, hlast, hpos⟩
        by_cases hn : n = u.childList.length - 1
        · rw [hlast hn]
          exact ⟨hnd, fun x hx => Or.inl hx⟩
        · rcases hpos hn with ⟨v, _, _, _, _, hperm⟩
          have hip := labels_perm_ids hperm
          exact ⟨hip.nodup_iff.mpr hnd, fun x hx => Or.inl (hip.mem_iff.mp hx)⟩
    · rw [applyAt_no_match (fun h => hmem ((subIds_sub_ids _) h))]
      exact ⟨hnd, fun x hx => Or.inl hx⟩
  | added target =>
    simp only [reducer]
    by_cases hmem : target ∈ ids d.tree
    · by_cases hroot : target = d.tree.id
      · rw [hroot, applyAt_root_no_match hnd]
        exact ⟨hnd, fun x hx => Or.inl hx⟩
      · rcases master_added d.tree target nid hnd hmem hroot hfresh with
          ⟨u, v, _, _, _, _, _, hperm, _⟩
        have hip := labels_perm_cons_ids hperm
        constructor
        · apply hip.nodup_iff.mpr
          rw [List.nodup_cons]
          exact ⟨hfresh, hnd⟩
        · intro x hx
          rcases List.mem_cons.mp (hip.mem_iff.mp hx) with rfl | h
          · exact Or.inr ⟨rfl, rfl⟩
          · exact Or.inl h
    · rw [applyAt_no_match (fun h => hmem ((subIds_sub_ids _) h))]
      exact ⟨hnd, fun x hx => Or.inl hx⟩
  | removed target =>
    simp only [reducer]
    by_cases hmem : target ∈ ids d.tree
    · by_cases hroot : target = d.tree.id
      · rw [hroot, applyAt_root_no_match hnd]
        exact ⟨hnd, fun x hx => Or.inl hx⟩
      · rcases master_removed d.tree target hnd hmem hroot with
          ⟨u, v, sub, _, _, _, _, _, _, _, hperm⟩
        have hip := labels_append_perm_ids hperm
        constructor
        · exact (hip.nodup_iff.mpr hnd).of_append_left
        · intro x hx
          exact Or.inl (hip.mem_iff.mp (List.mem_append.mpr (Or.inl hx)))
    · rw [applyAt_no_match (fun h => hmem ((subIds_sub_ids _) h))]
      exact ⟨hnd, fun x hx => Or.inl hx⟩

/-- Running any command sequence from a snapshot with unique ids, drawing
fresh ids from a duplicate-free supply that avoids the ids already present,
keeps all ids in the snapshot pairwise distinct. -/
theorem runSeq_invariant (supply : Nat → String) (S : List String)
    (hinj : ∀ a b : Nat, supply a = supply b → a = b)
    (hS : ∀ n : Nat, supply n ∉ S) :
    ∀ (as : List Action) (d : Data) (k : Nat),
      (ids d.tree).Nodup →
      (∀ x ∈ ids d.tree, x ∈ S ∨ ∃ j, j < k ∧ supply j = x) →
      (ids (runSeq supply d as k).tree).Nodup := by
  intro as
  induction as with
  | nil =>
    intro d k hnd _
    simpa [runSeq] using hnd
  | cons a as ih =>
    intro d k hnd hsub
    rw [runSeq]
    have hfresh : supply k ∉ ids d.tree := by
      intro hmem
      rcases hsub _ hmem with h | ⟨j, hj, hje⟩
      · exact hS k h
      · exact absurd (hinj j k hje) (by omega)
    rcases reducer_ids_step (supply k) d a hnd hfresh with ⟨hnd', hsub'⟩
    apply ih _ (nextIdx a k) hnd'
    intro x hx
    rcases hsub' x hx with h | ⟨rfl, hadd⟩
    · rcases hsub x h with h' | ⟨j, hj, hje⟩
      · exact Or.inl h'
      · refine Or.inr ⟨j, ?_, hje⟩
        cases a <;> simp [nextIdx] <;> omega
    · refine Or.inr ⟨k, ?_, rfl⟩
      cases a <;> simp [nextIdx] at hadd ⊢

/-! ## Export serialization

`copyToClipboard` (App.tsx lines 8-11) runs
`JSON.stringify(data, null, 2)`.  `JValue` is the JSON value produced by the
snapshot (`JSON.stringify` drops the `children` property when it is
`undefined`), and `stringifyV` embeds the host serializer with a two-space
gap: objects and arrays put every member on its own line, indented one gap
deeper than the surrounding value, keys are followed by a colon and one
space, and strings are quoted with the standard JSON escapes. -/

inductive JValue where
  | str (s : String) : JValue
  | arr (xs : List JValue) : JValue
  | obj (fields : List (String × JValue)) : JValue

def hexDigit (n : Nat) : Char :=
  if n < 10 then Char.ofNat (48 + n) else Char.ofNat (87 + n)

def hex4 (n : Nat) : String :=
  String.mk [hexDigit (n / 4096 % 16), hexDigit (n / 256 % 16), hexDigit (n / 16 % 16),
    hexDigit (n % 16)]

/-- One character of QuoteJSONString. -/
def escChar (c : Char) : String :=
  if c = Char.ofNat 8 then "\\b"
  else if c = Char.ofNat 9 then "\\t"
  else if c = Char.ofNat 10 then "\\n"
  else if c = Char.ofNat 12 then "\\f"
  else if c = Char.ofNat 13 then "\\r"
  else if c = '"' then "\\\""
  else if c = '\\' then "\\\\"
  else if c.toNat < 32 then "\\u" ++ hex4 c.toNat
  else String.singleton c

/-- QuoteJSONString: the JSON text of a string value. -/
def jsonQuote (s : String) : String :=
  "\"" ++ String.join (s.toList.map escChar) ++ "\""

mutual

/-- SerializeJSONProperty of `JSON.stringify(value, null, 2)` at the
surrounding indentation `ind`. -/
def stringifyV (ind : String) : JValue → String
  | .str s => jsonQuote s
  | .arr xs =>
    match xs with
    | [] => "[]"
    | x :: rest =>
      "[\n" ++ ind ++ "  " ++ stringifyV (ind ++ "  ") x ++ stringifyArr (ind ++ "  ") rest
        ++ "\n" ++ ind ++ "]"
  | .obj fs =>
    match fs with
    | [] => "\x7b\x7d"
    | (k, v) :: rest =>
      "\x7b\n" ++ ind ++ "  " ++ jsonQuote k ++ ": " ++ stringifyV (ind ++ "  ") v
        ++ stringifyObj (ind ++ "  ") rest ++ "\n" ++ ind ++ "\x7d"

/-- The remaining array elements, each on its own line at indentation `ind`. -/
def stringifyArr (ind : String) : List JValue → String
  | [] => ""
  | x :: rest => ",\n" ++ ind ++ stringifyV ind x ++ stringifyArr ind rest

/-- The remaining object members, each on its own line at indentation `ind`. -/
def stringifyObj (ind : String) : List (String × JValue) → String
  | [] => ""
  | (k, v) :: rest =>
    ",\n" ++ ind ++ jsonQuote k ++ ": " ++ stringifyV ind v ++ stringifyObj ind rest

end

mutual

/-- The JSON value of a node.  `createTree` stores `children: undefined`
for a leaf and the seed literals omit the property; `JSON.stringify` skips
a property whose value is `undefined` in both cases. -/
def treeToJson : Tree → JValue
  | Tree.mk i s none => JValue.obj [("id", JValue.str i), ("text", JValue.str s)]
  | Tree.mk i s (some cs) =>
    JValue.obj [("id", JValue.str i), ("text", JValue.str s),
      ("children", JValue.arr (treeListToJson cs))]

/-- The JSON values of a child array. -/
def treeListToJson : List Tree → List JValue
  | [] => []
  | c :: cs => treeToJson c :: treeListToJson cs

end

/-- The JSON value of a snapshot: field order `version`, then `tree`. -/
def dataToJson (d : Data) : JValue :=
  JValue.obj [("version", JValue.str d.version), ("tree", treeToJson d.tree)]

/-- Embeds `formattedData` of `copyToClipboard`:
`JSON.stringify(data, null, 2)`. -/
def formattedData (d : Data) : String := stringifyV "" (dataToJson d)

/-- Two spaces per nesting level. -/
def indentStr : Nat → String
  | 0 => ""
  | lvl + 1 => indentStr lvl ++ "  "

mutual

/-- Modelled from the spec (section 4.2), with the top-level field name
amended from `root` to `tree`: each node is rendered as an object whose
fields are `id`, `text`, `children` in that order (`children` only when the
node has a child array), each field on its own line, nesting indented by
two spaces per level, and string values carried verbatim up to the quoting
the textual format requires. -/
def specNode (lvl : Nat) : Tree → String
  | Tree.mk i s none =>
    "\x7b\n" ++ indentStr (lvl + 1) ++ "\"id\"" ++ ": " ++ jsonQuote i ++ ",\n"
      ++ indentStr (lvl + 1) ++ "\"text\"" ++ ": " ++ jsonQuote s
      ++ "\n" ++ indentStr lvl ++ "\x7d"
  | Tree.mk i s (some cs) =>
    "\x7b\n" ++ indentStr (lvl + 1) ++ "\"id\"" ++ ": " ++ jsonQuote i ++ ",\n"
      ++ indentStr (lvl + 1) ++ "\"text\"" ++ ": " ++ jsonQuote s ++ ",\n"
      ++ indentStr (lvl + 1) ++ "\"children\"" ++ ": " ++ specChildren lvl cs
      ++ "\n" ++ indentStr lvl ++ "\x7d"

/-- The child array of a node living at nesting level `lvl`. -/
def specChildren (lvl : Nat) : List Tree → String
  | [] => "[]"
  | c :: cs =>
    "[\n" ++ indentStr (lvl + 2) ++ specNode (lvl + 2) c ++ specItems (lvl + 2) cs
      ++ "\n" ++ indentStr (lvl + 1) ++ "]"

/-- The remaining children at nesting level `lvl`. -/
def specItems (lvl : Nat) : List Tree → String
  | [] => ""
  | c :: cs => ",\n" ++ indentStr lvl ++ specNode lvl c ++ specItems lvl cs

end

/-- Modelled from the spec (sections 4.2 and 8), with the top-level field
name amended from `root` to `tree`: field order `version` then `tree` at
the top level. -/
def specExport (d : Data) : String :=
  "\x7b\n" ++ "  " ++ "\"version\"" ++ ": " ++ jsonQuote d.version ++ ",\n"
    ++ "  " ++ "\"tree\"" ++ ": " ++ specNode 1 d.tree ++ "\n" ++ "\x7d"

theorem stringify_spec : ∀ t : Tree, ∀ lvl : Nat,
    stringifyV (indentStr lvl) (treeToJson t) = specNode lvl t := by
  intro t
  induction t using Tree.strongInd with
  | _ t ih =>
    have hlist : ∀ cs : List Tree, (∀ c ∈ cs, ∀ l : Nat,
        stringifyV (indentStr l) (treeToJson c) = specNode l c) → ∀ lv : Nat,
        stringifyArr (indentStr lv) (treeListToJson cs) = specItems lv cs := by
      intro cs hcs
      induction cs with
      | nil => intro lv; rfl
      | cons c cs ihl =>
        intro lv
        rw [treeListToJson, stringifyArr, specItems,
          hcs c (List.mem_cons_self c cs) lv,
          ihl (fun d hd => hcs d (List.mem_cons_of_mem _ hd))]
    cases t with
    | mk i s cs =>
      intro lvl
      cases cs with
      | none =>
        rw [treeToJson]
        show "\x7b\n" ++ indentStr lvl ++ "  " ++ jsonQuote "id" ++ ": "
            ++ jsonQuote i
            ++ (",\n" ++ (indentStr lvl ++ "  ") ++ jsonQuote "text" ++ ": "
              ++ jsonQuote s ++ "")
            ++ "\n" ++ indentStr lvl ++ "\x7d" = _
        rw [show jsonQuote "id" = "\"id\"" from rfl,
          show jsonQuote "text" = "\"text\"" from rfl, specNode]
        simp [indentStr, String.append_assoc]
      | some l =>
        have hchild : ∀ c ∈ l, ∀ lv : Nat,
            stringifyV (indentStr lv) (treeToJson c) = specNode lv c := by
          intro c hc lv
          exact ih c (by simpa using hc) lv
        have harr : stringifyV (indentStr lvl ++ "  ") (JValue.arr (treeListToJson l)) =
            specChildren lvl l := by
          have hind : indentStr lvl ++ "  " = indentStr (lvl + 1) := rfl
          rw [hind]
          cases l with
          | nil => rfl
          | cons c l =>
            rw [treeListToJson, specChildren]
            show "[\n" ++ indentStr (lvl + 1) ++ "  "
                ++ stringifyV (indentStr (lvl + 1) ++ "  ") (treeToJson c)
                ++ stringifyArr (indentStr (lvl + 1) ++ "  ") (treeListToJson l)
                ++ "\n" ++ indentStr (lvl + 1) ++ "]" = _
            rw [show indentStr (lvl + 1) ++ "  " = indentStr (lvl + 2) from rfl,
              hchild c (List.mem_cons_self c l) (lvl + 2),
              hlist l (fun d hd l2 => hchild d (List.mem_cons_of_mem _ hd) l2) (lvl + 2)]
            simp [indentStr, String.append_assoc]
        rw [treeToJson]
        show "\x7b\n" ++ indentStr lvl ++ "  " ++ jsonQuote "id" ++ ": "
            ++ jsonQuote i
            ++ (",\n" ++ (indentStr lvl ++ "  ") ++ jsonQuote "text" ++ ": "
              ++ jsonQuote s
              ++ (",\n" ++ (indentStr lvl ++ "  ") ++ jsonQuote "children" ++ ": "
                ++ stringifyV (indentStr lvl ++ "  ") (JValue.arr (treeListToJson l)) ++ ""))
            ++ "\n" ++ indentStr lvl ++ "\x7d" = _
        rw [show jsonQuote "id" = "\"id\"" from rfl,
          show jsonQuote "text" = "\"text\"" from rfl,
          show jsonQuote "children" = "\"children\"" from rfl, harr, specNode]
        simp [indentStr, String.append_assoc]

/-- The export text is exactly the spec-described format (with the
amended top-level field name `tree`). -/
theorem formattedData_eq_specExport (d : Data) : formattedData d = specExport d := by
  rw [formattedData, dataToJson]
  show "\x7b\n" ++ "" ++ "  " ++ jsonQuote "version" ++ ": " ++ jsonQuote d.version
      ++ (",\n" ++ ("" ++ "  ") ++ jsonQuote "tree" ++ ": "
        ++ stringifyV ("" ++ "  ") (treeToJson d.tree) ++ "")
      ++ "\n" ++ "" ++ "\x7d" = _
  rw [show jsonQuote "version" = "\"version\"" from rfl,
    show jsonQuote "tree" = "\"tree\"" from rfl,
    show ("" ++ "  " : String) = indentStr 1 from rfl,
    stringify_spec d.tree 1, specExport]
  simp [show indentStr 1 = ("  " : String) from rfl, String.append_assoc]

/-! ## Last helpers for the claim theorems -/

theorem findNode_isSome {x : String} {t : Tree} (h : x ∈ ids t) :
    ∃ u, findNode x t = some u ∧ u.id = x := by
  have : (preNodes t).find? (fun u => u.id == x) ≠ none := by
    intro hnone
    rw [List.find?_eq_none] at hnone
    rcases mem_ids_iff.mp h with ⟨u, hu, hid⟩
    exact absurd (by simp [hid] : (u.id == x) = true) (by simpa using hnone u hu)
  rcases Option.ne_none_iff_exists'.mp this with ⟨u, hu⟩
  exact ⟨u, hu, (findNode_some_spec hu).2⟩

theorem children_ne_none_of_child {u c : Tree} (hc : c ∈ u.childList) :
    u.children ≠ none := by
  cases u with
  | mk i s cs =>
    cases cs with
    | none => simp [Tree.childList] at hc
    | some l => simp

/-! ## Claim theorems -/

/-- C1: For every snapshot and every command (rename, moveUp, moveDown,
addSibling, remove) whose target id does not occur anywhere in the tree,
the reducer returns the state unchanged — observational equality is literal
equality of snapshots here — and, the embedding being total functions, no
command application signals an error. -/
theorem claim1_no_target_no_op (newId : String) (d : Data) (a : Action)
    (h : a.targetId ∉ ids d.tree) : reducer newId d a = d := by
  cases a with
  | textChanged target text =>
    simp only [Action.targetId] at h
    simp only [reducer]
    rw [updateTree_no_match h]
  | moveUp target =>
    simp only [Action.targetId] at h
    simp only [reducer]
    rw [applyAt_no_match (fun hh => h ((subIds_sub_ids _) hh))]
  | moveDown target =>
    simp only [Action.targetId] at h
    simp only [reducer]
    rw [applyAt_no_match (fun hh => h ((subIds_sub_ids _) hh))]
  | added target =>
    simp only [Action.targetId] at h
    simp only [reducer]
    rw [applyAt_no_match (fun hh => h ((subIds_sub_ids _) hh))]
  | removed target =>
    simp only [Action.targetId] at h
    simp only [reducer]
    rw [applyAt_no_match (fun hh => h ((subIds_sub_ids _) hh))]

theorem claim1_witness :
    (("x" : String) ∉ ids (Tree.mk "r" "p" (some [Tree.mk "a" "c" none]))) ∧
    reducer "n" ⟨"0.1.0", Tree.mk "r" "p" (some [Tree.mk "a" "c" none])⟩
        (Action.removed "x") =
      ⟨"0.1.0", Tree.mk "r" "p" (some [Tree.mk "a" "c" none])⟩ :=
  ⟨by decide, claim1_no_target_no_op "n"
    ⟨"0.1.0", Tree.mk "r" "p" (some [Tree.mk "a" "c" none])⟩ (Action.removed "x")
    (by decide)⟩

/-- C9: Rename sets the target node's text to the new text and changes
nothing else: the pre-order id sequence is untouched, every other node
keeps its text, every node (the target included) keeps its child-id list
(hence all sibling order), and an absent target id leaves the snapshot
unchanged. -/
theorem claim9_rename (newId : String) (d : Data) (target newText : String) :
    ids (reducer newId d (Action.textChanged target newText)).tree = ids d.tree ∧
    (target ∉ ids d.tree → reducer newId d (Action.textChanged target newText) = d) ∧
    (target ∈ ids d.tree →
      textOf target (reducer newId d (Action.textChanged target newText)).tree =
        some newText) ∧
    (∀ x, x ≠ target →
      textOf x (reducer newId d (Action.textChanged target newText)).tree =
        textOf x d.tree) ∧
    (∀ x, childIdsOf x (reducer newId d (Action.textChanged target newText)).tree =
      childIdsOf x d.tree) := by
  have htree : (reducer newId d (Action.textChanged target newText)).tree =
      updateTree target (fun u => Tree.mk u.id newText u.children) d.tree := rfl
  have hobs := rename_obs target newText d.tree
  have hcorr : ∀ x : String,
      (findNode x (updateTree target (fun u => Tree.mk u.id newText u.children)
          d.tree)).map (fun u => (u.id, u.text, childIds u)) =
        (findNode x d.tree).map (fun u =>
          (u.id, if u.id = target then newText else u.text, childIds u)) := by
    intro x
    exact find?_map_corr (p := fun y => y.1 == x) hobs
  refine ⟨?_, ?_, ?_, ?_, ?_⟩
  · rw [htree, ids_rename]
  · intro h
    simp only [reducer]
    rw [updateTree_no_match h]
  · intro h
    rcases findNode_isSome h with ⟨u, hu, huid⟩
    have := hcorr target
    rw [hu] at this
    rcases Option.map_eq_some'.mp this with ⟨w, hw, hwodd⟩
    rw [textOf, htree, hw]
    simp only [Prod.mk.injEq] at hwodd
    simp [Option.map_some', hwodd.2.1, huid]
  · intro x hx
    by_cases h : x ∈ ids d.tree
    · rcases findNode_isSome h with ⟨u, hu, huid⟩
      have := hcorr x
      rw [hu] at this
      rcases Option.map_eq_some'.mp this with ⟨w, hw, hwodd⟩
      rw [textOf, textOf, htree, hw, hu]
      simp only [Prod.mk.injEq] at hwodd
      simp [Option.map_some', hwodd.2.1, huid, hx]
    · have h1 : findNode x d.tree = none := findNode_eq_none h
      have h2 : findNode x (updateTree target
          (fun u => Tree.mk u.id newText u.children) d.tree) = none := by
        apply findNode_eq_none
        rw [ids_rename]
        exact h
      rw [textOf, textOf, htree, h1, h2]
  · intro x
    by_cases h : x ∈ ids d.tree
    · rcases findNode_isSome h with ⟨u, hu, huid⟩
      have := hcorr x
      rw [hu] at this
      rcases Option.map_eq_some'.mp this with ⟨w, hw, hwodd⟩
      rw [childIdsOf, childIdsOf, htree, hw, hu]
      simp only [Prod.mk.injEq] at hwodd
      simp [Option.map_some', hwodd.2.2]
    · have h1 : findNode x d.tree = none := findNode_eq_none h
      have h2 : findNode x (updateTree target
          (fun u => Tree.mk u.id newText u.children) d.tree) = none := by
        apply findNode_eq_none
        rw [ids_rename]
        exact h
      rw [childIdsOf, childIdsOf, htree, h1, h2]

theorem claim9_witness :
    ids (reducer "n" ⟨"0.1.0", Tree.mk "r" "p" (some [Tree.mk "a" "c" none])⟩
        (Action.textChanged "a" "zz")).tree =
      ids (Tree.mk "r" "p" (some [Tree.mk "a" "c" none])) ∧
    textOf "a" (reducer "n" ⟨"0.1.0", Tree.mk "r" "p" (some [Tree.mk "a" "c" none])⟩
        (Action.textChanged "a" "zz")).tree = some "zz" ∧
    textOf "r" (reducer "n" ⟨"0.1.0", Tree.mk "r" "p" (some [Tree.mk "a" "c" none])⟩
        (Action.textChanged "a" "zz")).tree =
      textOf "r" (Tree.mk "r" "p" (some [Tree.mk "a" "c" none])) := by
  have h := claim9_rename "n" ⟨"0.1.0", Tree.mk "r" "p" (some [Tree.mk "a" "c" none])⟩
    "a" "zz"
  exact ⟨h.1, h.2.2.1 (by decide), h.2.2.2.1 "r" (by decide)⟩

/-- C3 counterexample: `updateTreeInner` (part_000) returns at a match
without recursing into the matched node's children, so with the target id
duplicated on a nested node and the transform that sets the text to "z",
the nested matching node keeps its old text "y" — the claim, which says
every matching node has the transform applied (nodes inside an
already-matched subtree included), fails on it. -/
theorem claim3_counterexample :
    ¬ (∀ u ∈ preNodes (updateTreeInner "a" (fun v => Tree.mk v.id "z" v.children)
        (Tree.mk "a" "x" (some [Tree.mk "a" "y" none]))),
        u.id = "a" → u.text = "z") := by
  intro h
  have hmem : Tree.mk "a" "y" none ∈ preNodes (updateTreeInner "a"
      (fun v => Tree.mk v.id "z" v.children)
      (Tree.mk "a" "x" (some [Tree.mk "a" "y" none]))) := by
    show Tree.mk "a" "y" none ∈ preNodes (Tree.mk "a" "z" (some [Tree.mk "a" "y" none]))
    rw [preNodes_eq]
    exact List.mem_cons_of_mem _ (mem_preNodesL.mpr
      ⟨Tree.mk "a" "y" none, List.mem_cons_self _ _, self_mem_preNodes _⟩)
  have := h (Tree.mk "a" "y" none) hmem rfl
  simp at this

/-- C3 (amended): the reducer's `updateTree` traversal (App.tsx) is
pre-order and does not stop after a match: for every tree and every
children-preserving transform, the node at every pre-order position whose
id equals the target — nodes inside an already-matched subtree included —
carries the transformed label in the result, and every other position is
untouched.  The earlier iteration's `updateTreeInner` instead returns at a
match without recursing into that subtree. -/
theorem claim3_traversal (target : String) (f : Tree → Tree)
    (hf : ∀ u, (f u).children = u.children) (t : Tree) :
    (preNodes (updateTree target f t)).map (fun u => (u.id, u.text)) =
      (preNodes t).map (fun u =>
        if u.id = target then ((f u).id, (f u).text) else (u.id, u.text)) :=
  updateTree_labels target f hf t

theorem claim3_witness :
    (∀ u : Tree, ((fun v => Tree.mk v.id "z" v.children) u).children = u.children) ∧
    (preNodes (updateTree "a" (fun v => Tree.mk v.id "z" v.children)
        (Tree.mk "a" "x" (some [Tree.mk "a" "y" none])))).map (fun u => (u.id, u.text)) =
      (preNodes (Tree.mk "a" "x" (some [Tree.mk "a" "y" none]))).map (fun u =>
        if u.id = "a" then (((fun v => Tree.mk v.id "z" v.children) u).id,
          ((fun v => Tree.mk v.id "z" v.children) u).text) else (u.id, u.text)) :=
  ⟨fun u => by cases u with | mk i s cs => rfl,
    claim3_traversal "a" (fun v => Tree.mk v.id "z" v.children)
      (fun u => by cases u with | mk i s cs => rfl)
      (Tree.mk "a" "x" (some [Tree.mk "a" "y" none]))⟩

/-- C2 counterexample: the serialized snapshot's second top-level field is
named `tree`, not `root` as the claim states: on the minimal single-node
snapshot the export text is exactly the `tree`-field string and differs
from the string the claimed format prescribes. -/
theorem claim2_counterexample :
    formattedData ⟨"0.1.0", Tree.mk "a" "" none⟩ =
      "\x7b\n  \"version\": \"0.1.0\",\n  \"tree\": \x7b\n    \"id\": \"a\",\n    \"text\": \"\"\n  \x7d\n\x7d" ∧
    formattedData ⟨"0.1.0", Tree.mk "a" "" none⟩ ≠
      "\x7b\n  \"version\": \"0.1.0\",\n  \"root\": \x7b\n    \"id\": \"a\",\n    \"text\": \"\"\n  \x7d\n\x7d" := by
  constructor
  · rfl
  · decide

/-- C2 (amended): the export operation serializes a snapshot with top-level
field order `version` then `tree` (the code's field name; the claim said
`root`), per-node field order `id`, `text`, `children`, two spaces of
indentation per nesting level, and the version tag, ids, texts, tree shape
and child order carried verbatim — stated as equality with the
spec-modelled format. -/
theorem claim2_export_format (d : Data) : formattedData d = specExport d :=
  formattedData_eq_specExport d

/-- C4 counterexample: `generateId()` (`Math.random() * 1e6 + Date.now()`)
is an environment read that nothing prevents from returning the same string
twice; under a colliding draw, two AddSibling commands leave two nodes with
the same id, so the claim that all ids are pairwise distinct after any
command sequence fails. -/
theorem claim4_counterexample :
    ¬ (ids (runSeq (fun _ => "x")
        ⟨"0.1.0", Tree.mk "r" "" (some [Tree.mk "a" "" none])⟩
        [Action.added "a", Action.added "a"] 0).tree).Nodup := by
  decide

/-- C4 (amended): starting from the seed snapshot, after any sequence of
commands, all ids in the resulting snapshot are pairwise distinct —
provided the successive `generateId()` results never repeat and avoid the
seed ids, which the generator itself does not guarantee. -/
theorem claim4_unique_ids (supply : Nat → String) (i0 i1 i2 i3 : String)
    (hinj : ∀ a b : Nat, supply a = supply b → a = b)
    (hseed : ∀ n : Nat, supply n ∉ ids (initialData i0 i1 i2 i3).tree)
    (hnd : (ids (initialData i0 i1 i2 i3).tree).Nodup) :
    ∀ as : List Action,
      (ids (runSeq supply (initialData i0 i1 i2 i3) as 0).tree).Nodup := by
  intro as
  exact runSeq_invariant supply (ids (initialData i0 i1 i2 i3).tree) hinj hseed as
    (initialData i0 i1 i2 i3) 0 hnd (fun x hx => Or.inl hx)

theorem claim4_witness :
    (∀ a b : Nat, String.mk (List.replicate (a + 1) 'z') =
        String.mk (List.replicate (b + 1) 'z') → a = b) ∧
    (∀ n : Nat, String.mk (List.replicate (n + 1) 'z') ∉
        ids (initialData "r" "a" "b" "c").tree) ∧
    (ids (initialData "r" "a" "b" "c").tree).Nodup ∧
    (ids (runSeq (fun n => String.mk (List.replicate (n + 1) 'z'))
        (initialData "r" "a" "b" "c") [Action.added "a", Action.added "b"] 0).tree).Nodup := by
  have hinj : ∀ a b : Nat, String.mk (List.replicate (a + 1) 'z') =
      String.mk (List.replicate (b + 1) 'z') → a = b := by
    intro a b h
    injection h with h2
    have := congrArg List.length h2
    simp only [List.length_replicate] at this
    omega
  have hkey : ∀ (n : Nat) (c : Char), c ≠ 'z' →
      String.mk (List.replicate (n + 1) 'z') ≠ String.mk [c] := by
    intro n c hc h
    injection h with h2
    have := congrArg (fun l => l.headD ' ') h2
    simp only [List.replicate_succ, List.headD_cons] at this
    exact hc this.symm
  have hseed : ∀ n : Nat, String.mk (List.replicate (n + 1) 'z') ∉
      ids (initialData "r" "a" "b" "c").tree := by
    intro n hmem
    have : String.mk (List.replicate (n + 1) 'z') = "r" ∨
        String.mk (List.replicate (n + 1) 'z') = "a" ∨
        String.mk (List.replicate (n + 1) 'z') = "b" ∨
        String.mk (List.replicate (n + 1) 'z') = "c" := by
      simpa [initialData, ids, preNodes, preNodesL] using hmem
    rcases this with h | h | h | h
    · exact hkey n 'r' (by decide) (by rw [h])
    · exact hkey n 'a' (by decide) (by rw [h])
    · exact hkey n 'b' (by decide) (by rw [h])
    · exact hkey n 'c' (by decide) (by rw [h])
  refine ⟨hinj, hseed, by decide, ?_⟩
  exact claim4_unique_ids (fun n => String.mk (List.replicate (n + 1) 'z'))
    "r" "a" "b" "c" hinj hseed (by decide) [Action.added "a", Action.added "b"]

/-- C5: AddSibling on a present, non-root target inserts one new node with
the fresh id, empty text and no children immediately after the target in
the parent's child sequence; the parent keeps its id and text, its child
count grows by exactly one, all other siblings keep their relative order
(the child-id list is exactly the insertion), and no existing node's id or
text changes (the multiset of (id, text) labels gains exactly the new
node's label).  AddSibling on the root is a no-op. -/
theorem claim5_addSibling (d : Data) (target nid : String)
    (hnd : (ids d.tree).Nodup) (hfresh : nid ∉ ids d.tree) :
    (target = d.tree.id → reducer nid d (Action.added target) = d) ∧
    (target ∈ ids d.tree → target ≠ d.tree.id →
      ∃ u v, findParent target d.tree = some u ∧
        findParent target (reducer nid d (Action.added target)).tree = some v ∧
        v.id = u.id ∧ v.text = u.text ∧
        target ∈ childIds u ∧
        childIds v = insertAfterId target nid (childIds u) ∧
        (childIds v).length = (childIds u).length + 1 ∧
        List.Perm (labels (reducer nid d (Action.added target)).tree)
          ((nid, "") :: labels d.tree) ∧
        findNode nid (reducer nid d (Action.added target)).tree =
          some (Tree.mk nid "" none)) := by
  have htree : (reducer nid d (Action.added target)).tree =
      applyAt (addedOp nid target) target d.tree := rfl
  constructor
  · intro hroot
    simp only [reducer]
    rw [hroot, applyAt_root_no_match hnd]
  · intro hm hr
    rcases master_added d.tree target nid hnd hm hr hfresh with
      ⟨u, v, hu, hv, hid, htext, hchild, hperm, hnew⟩
    have hmemc : target ∈ childIds u := by
      rcases (findParent_some_spec hu).2 with ⟨c, hc, hcid⟩
      exact List.mem_map.mpr ⟨c, hc, hcid⟩
    refine ⟨u, v, hu, by rw [htree]; exact hv, hid, htext, hmemc, hchild, ?_,
      by rw [htree]; exact hperm, by rw [htree]; exact hnew⟩
    rw [hchild, insertAfterId_length hmemc]

theorem claim5_witness :
    ((ids (Tree.mk "r" "p" (some [Tree.mk "a" "1" none, Tree.mk "b" "2" none]))).Nodup ∧
      ("n" : String) ∉ ids (Tree.mk "r" "p"
        (some [Tree.mk "a" "1" none, Tree.mk "b" "2" none]))) ∧
    (("a" : String) = (Tree.mk "r" "p"
        (some [Tree.mk "a" "1" none, Tree.mk "b" "2" none])).id →
      reducer "n" ⟨"0.1.0", Tree.mk "r" "p"
        (some [Tree.mk "a" "1" none, Tree.mk "b" "2" none])⟩ (Action.added "a") =
      ⟨"0.1.0", Tree.mk "r" "p" (some [Tree.mk "a" "1" none, Tree.mk "b" "2" none])⟩) ∧
    (("a" : String) ∈ ids (Tree.mk "r" "p"
        (some [Tree.mk "a" "1" none, Tree.mk "b" "2" none])) →
      ("a" : String) ≠ (Tree.mk "r" "p"
        (some [Tree.mk "a" "1" none, Tree.mk "b" "2" none])).id →
      ∃ u v, findParent "a" (Tree.mk "r" "p"
          (some [Tree.mk "a" "1" none, Tree.mk "b" "2" none])) = some u ∧
        findParent "a" (reducer "n" ⟨"0.1.0", Tree.mk "r" "p"
          (some [Tree.mk "a" "1" none, Tree.mk "b" "2" none])⟩
          (Action.added "a")).tree = some v ∧
        v.id = u.id ∧ v.text = u.text ∧
        ("a" : String) ∈ childIds u ∧
        childIds v = insertAfterId "a" "n" (childIds u) ∧
        (childIds v).length = (childIds u).length + 1 ∧
        List.Perm (labels (reducer "n" ⟨"0.1.0", Tree.mk "r" "p"
          (some [Tree.mk "a" "1" none, Tree.mk "b" "2" none])⟩ (Action.added "a")).tree)
          (("n", "") :: labels (Tree.mk "r" "p"
            (some [Tree.mk "a" "1" none, Tree.mk "b" "2" none]))) ∧
        findNode "n" (reducer "n" ⟨"0.1.0", Tree.mk "r" "p"
          (some [Tree.mk "a" "1" none, Tree.mk "b" "2" none])⟩
          (Action.added "a")).tree = some (Tree.mk "n" "" none)) :=
  ⟨⟨by decide, by decide⟩,
    (claim5_addSibling ⟨"0.1.0", Tree.mk "r" "p"
      (some [Tree.mk "a" "1" none, Tree.mk "b" "2" none])⟩ "a" "n"
      (by decide) (by decide)).1,
    (claim5_addSibling ⟨"0.1.0", Tree.mk "r" "p"
      (some [Tree.mk "a" "1" none, Tree.mk "b" "2" none])⟩ "a" "n"
      (by decide) (by decide)).2⟩

/-- C6: Remove on a present, non-root target deletes the target and its
entire subtree: the parent keeps its id and text, its child sequence is the
old one with the target deleted (so the child count drops by exactly one
and the remaining siblings keep relative order), the removed subtree's
labels are exactly the labels missing from the result, and no id of the
removed subtree remains reachable from the root.  Remove of the root or of
an absent id is a no-op. -/
theorem claim6_remove (nid : String) (d : Data) (target : String)
    (hnd : (ids d.tree).Nodup) :
    (target ∉ ids d.tree → reducer nid d (Action.removed target) = d) ∧
    (target = d.tree.id → reducer nid d (Action.removed target) = d) ∧
    (target ∈ ids d.tree → target ≠ d.tree.id →
      ∃ u v sub, findParent target d.tree = some u ∧
        findNode target d.tree = some sub ∧
        findNode u.id (reducer nid d (Action.removed target)).tree = some v ∧
        v.id = u.id ∧ v.text = u.text ∧
        childIds v = (childIds u).erase target ∧
        (childIds v).length + 1 = (childIds u).length ∧
        List.Perm (labels (reducer nid d (Action.removed target)).tree ++ labels sub)
          (labels d.tree) ∧
        (∀ x ∈ ids sub, x ∉ ids (reducer nid d (Action.removed target)).tree)) := by
  have htree : (reducer nid d (Action.removed target)).tree =
      applyAt (removedOp target) target d.tree := rfl
  refine ⟨?_, ?_, ?_⟩
  · intro h
    simp only [reducer]
    rw [applyAt_no_match (fun hh => h ((subIds_sub_ids _) hh))]
  · intro hroot
    simp only [reducer]
    rw [hroot, applyAt_root_no_match hnd]
  · intro hm hr
    rcases master_removed d.tree target hnd hm hr with
      ⟨u, v, sub, hu, hsub, hv, hid, htext, hmemc, hchild, hperm⟩
    have hlen : (childIds v).length + 1 = (childIds u).length := by
      rw [hchild, List.length_erase_of_mem hmemc]
      have : 0 < (childIds u).length := List.length_pos_of_mem hmemc
      omega
    have hperm' : List.Perm (ids (applyAt (removedOp target) target d.tree) ++ ids sub)
        (ids d.tree) := labels_append_perm_ids hperm
    have hdisj : ∀ x ∈ ids sub, x ∉ ids (applyAt (removedOp target) target d.tree) := by
      have hnd2 : (ids (applyAt (removedOp target) target d.tree) ++ ids sub).Nodup :=
        hperm'.nodup_iff.mpr hnd
      rw [List.nodup_append] at hnd2
      intro x hx hx'
      exact hnd2.2.2 hx' hx
    exact ⟨u, v, sub, hu, hsub, by rw [htree]; exact hv, hid, htext, hchild, hlen,
      by rw [htree]; exact hperm, by rw [htree]; exact hdisj⟩

theorem claim6_witness :
    ((ids (Tree.mk "r" "p" (some [Tree.mk "a" "1" none,
        Tree.mk "b" "2" (some [Tree.mk "c" "3" none])]))).Nodup) ∧
    (("b" : String) ∈ ids (Tree.mk "r" "p" (some [Tree.mk "a" "1" none,
        Tree.mk "b" "2" (some [Tree.mk "c" "3" none])])) →
      ("b" : String) ≠ (Tree.mk "r" "p" (some [Tree.mk "a" "1" none,
        Tree.mk "b" "2" (some [Tree.mk "c" "3" none])])).id →
      ∃ u v sub, findParent "b" (Tree.mk "r" "p" (some [Tree.mk "a" "1" none,
          Tree.mk "b" "2" (some [Tree.mk "c" "3" none])])) = some u ∧
        findNode "b" (Tree.mk "r" "p" (some [Tree.mk "a" "1" none,
          Tree.mk "b" "2" (some [Tree.mk "c" "3" none])])) = some sub ∧
        findNode u.id (reducer "n" ⟨"0.1.0", Tree.mk "r" "p" (some [Tree.mk "a" "1" none,
          Tree.mk "b" "2" (some [Tree.mk "c" "3" none])])⟩
          (Action.removed "b")).tree = some v ∧
        v.id = u.id ∧ v.text = u.text ∧
        childIds v = (childIds u).erase "b" ∧
        (childIds v).length + 1 = (childIds u).length ∧
        List.Perm (labels (reducer "n" ⟨"0.1.0", Tree.mk "r" "p"
          (some [Tree.mk "a" "1" none, Tree.mk "b" "2"
            (some [Tree.mk "c" "3" none])])⟩ (Action.removed "b")).tree ++ labels sub)
          (labels (Tree.mk "r" "p" (some [Tree.mk "a" "1" none,
            Tree.mk "b" "2" (some [Tree.mk "c" "3" none])]))) ∧
        (∀ x ∈ ids sub, x ∉ ids (reducer "n" ⟨"0.1.0", Tree.mk "r" "p"
          (some [Tree.mk "a" "1" none, Tree.mk "b" "2"
            (some [Tree.mk "c" "3" none])])⟩ (Action.removed "b")).tree)) :=
  ⟨by decide,
    (claim6_remove "n" ⟨"0.1.0", Tree.mk "r" "p" (some [Tree.mk "a" "1" none,
      Tree.mk "b" "2" (some [Tree.mk "c" "3" none])])⟩ "b" (by decide)).2.2⟩

/-- C7: MoveUp swaps a found non-root target with its immediately preceding
sibling and is a no-op when the target is the root, not found, or already
first; MoveDown symmetrically swaps with the immediately following sibling
and is a no-op when the target is the root, not found, or already last.
The parent's child-id list becomes exactly the adjacent swap, so all other
siblings keep their positions, and the multiset of (id, text) labels is
unchanged. -/
theorem claim7_move (nid : String) (d : Data) (target : String)
    (hnd : (ids d.tree).Nodup) :
    (target ∉ ids d.tree → reducer nid d (Action.moveUp target) = d ∧
      reducer nid d (Action.moveDown target) = d) ∧
    (target = d.tree.id → reducer nid d (Action.moveUp target) = d ∧
      reducer nid d (Action.moveDown target) = d) ∧
    (target ∈ ids d.tree → target ≠ d.tree.id →
      ∃ u n, findParent target d.tree = some u ∧
        List.findIdx? (fun e => e.id == target) u.childList = some n ∧
        n < u.childList.length ∧
        (n = 0 → reducer nid d (Action.moveUp target) = d) ∧
        (∀ m, n = m + 1 →
          ∃ v, findNode u.id (reducer nid d (Action.moveUp target)).tree = some v ∧
            v.id = u.id ∧ v.text = u.text ∧
            childIds v = swapIds m (childIds u) ∧
            List.Perm (labels (reducer nid d (Action.moveUp target)).tree)
              (labels d.tree)) ∧
        (n = u.childList.length - 1 → reducer nid d (Action.moveDown target) = d) ∧
        (n ≠ u.childList.length - 1 →
          ∃ w, findNode u.id (reducer nid d (Action.moveDown target)).tree = some w ∧
            w.id = u.id ∧ w.text = u.text ∧
            childIds w = swapIds n (childIds u) ∧
            List.Perm (labels (reducer nid d (Action.moveDown target)).tree)
              (labels d.tree))) := by
  have htreeU : (reducer nid d (Action.moveUp target)).tree =
      applyAt (moveUpOp target) target d.tree := rfl
  have htreeD : (reducer nid d (Action.moveDown target)).tree =
      applyAt (moveDownOp target) target d.tree := rfl
  refine ⟨?_, ?_, ?_⟩
  · intro h
    constructor <;>
      (simp only [reducer]; rw [applyAt_no_match (fun hh => h ((subIds_sub_ids _) hh))])
  · intro hroot
    constructor <;> (simp only [reducer]; rw [hroot, applyAt_root_no_match hnd])
  · intro hm hr
    rcases master_moveUp d.tree target hnd hm hr with ⟨u, n, hu, hidx, hlen, hzero, hpos⟩
    rcases master_moveDown d.tree target hnd hm hr with
      ⟨u2, n2, hu2, hidx2, _, hlast2, hpos2⟩
    have huu : u2 = u := (Option.some.inj (hu.symm.trans hu2)).symm
    rw [huu] at hidx2 hlast2 hpos2
    have hnn : n2 = n := (Option.some.inj (hidx.symm.trans hidx2)).symm
    rw [hnn] at hlast2 hpos2
    refine ⟨u, n, hu, hidx, hlen, ?_, ?_, ?_, ?_⟩
    · intro h0
      simp only [reducer]
      rw [hzero h0]
    · intro m hnm
      rcases hpos m hnm with ⟨v, hv, hid, htext, hchild, hperm⟩
      exact ⟨v, by rw [htreeU]; exact hv, hid, htext, hchild,
        by rw [htreeU]; exact hperm⟩
    · intro hlast
      simp only [reducer]
      rw [hlast2 hlast]
    · intro hnot
      rcases hpos2 hnot with ⟨w, hw, hid, htext, hchild, hperm⟩
      exact ⟨w, by rw [htreeD]; exact hw, hid, htext, hchild,
        by rw [htreeD]; exact hperm⟩

theorem claim7_witness :
    ((ids (Tree.mk "r" "p" (some [Tree.mk "a" "1" none, Tree.mk "b" "2" none]))).Nodup) ∧
    (("b" : String) ∈ ids (Tree.mk "r" "p"
        (some [Tree.mk "a" "1" none, Tree.mk "b" "2" none])) →
      ("b" : String) ≠ (Tree.mk "r" "p"
        (some [Tree.mk "a" "1" none, Tree.mk "b" "2" none])).id →
      ∃ u n, findParent "b" (Tree.mk "r" "p"
          (some [Tree.mk "a" "1" none, Tree.mk "b" "2" none])) = some u ∧
        List.findIdx? (fun e => e.id == "b") u.childList = some n ∧
        n < u.childList.length ∧
        (n = 0 → reducer "x" ⟨"0.1.0", Tree.mk "r" "p"
          (some [Tree.mk "a" "1" none, Tree.mk "b" "2" none])⟩ (Action.moveUp "b") =
          ⟨"0.1.0", Tree.mk "r" "p" (some [Tree.mk "a" "1" none, Tree.mk "b" "2" none])⟩) ∧
        (∀ m, n = m + 1 →
          ∃ v, findNode u.id (reducer "x" ⟨"0.1.0", Tree.mk "r" "p"
              (some [Tree.mk "a" "1" none, Tree.mk "b" "2" none])⟩
              (Action.moveUp "b")).tree = some v ∧
            v.id = u.id ∧ v.text = u.text ∧
            childIds v = swapIds m (childIds u) ∧
            List.Perm (labels (reducer "x" ⟨"0.1.0", Tree.mk "r" "p"
              (some [Tree.mk "a" "1" none, Tree.mk "b" "2" none])⟩
              (Action.moveUp "b")).tree)
              (labels (Tree.mk "r" "p"
                (some [Tree.mk "a" "1" none, Tree.mk "b" "2" none])))) ∧
        (n = u.childList.length - 1 →
          reducer "x" ⟨"0.1.0", Tree.mk "r" "p"
            (some [Tree.mk "a" "1" none, Tree.mk "b" "2" none])⟩ (Action.moveDown "b") =
          ⟨"0.1.0", Tree.mk "r" "p" (some [Tree.mk "a" "1" none, Tree.mk "b" "2" none])⟩) ∧
        (n ≠ u.childList.length - 1 →
          ∃ w, findNode u.id (reducer "x" ⟨"0.1.0", Tree.mk "r" "p"
              (some [Tree.mk "a" "1" none, Tree.mk "b" "2" none])⟩
              (Action.moveDown "b")).tree = some w ∧
            w.id = u.id ∧ w.text = u.text ∧
            childIds w = swapIds n (childIds u) ∧
            List.Perm (labels (reducer "x" ⟨"0.1.0", Tree.mk "r" "p"
              (some [Tree.mk "a" "1" none, Tree.mk "b" "2" none])⟩
              (Action.moveDown "b")).tree)
              (labels (Tree.mk "r" "p"
                (some [Tree.mk "a" "1" none, Tree.mk "b" "2" none]))))) :=
  ⟨by decide,
    (claim7_move "x" ⟨"0.1.0", Tree.mk "r" "p"
      (some [Tree.mk "a" "1" none, Tree.mk "b" "2" none])⟩ "b" (by decide)).2.2⟩

/-- C8: For every snapshot with unique ids and every node that is neither
the root nor the first child of its parent, applying MoveUp to it and then
MoveDown to the same node restores the original snapshot exactly (the two
moves cancel). -/
theorem claim8_moveUp_moveDown_cancel (nid1 nid2 : String) (d : Data) (target : String)
    (hnd : (ids d.tree).Nodup) (hm : target ∈ ids d.tree) (hr : target ≠ d.tree.id)
    (hfirst : siblingIdx target d.tree ≠ some 0) :
    reducer nid2 (reducer nid1 d (Action.moveUp target)) (Action.moveDown target) = d := by
  show (⟨d.version, applyAt (moveDownOp target) target
    (applyAt (moveUpOp target) target d.tree)⟩ : Data) = d
  rw [master_cancel d.tree target hnd hm hr hfirst]

theorem claim8_witness :
    ((ids (Tree.mk "r" "p" (some [Tree.mk "a" "1" none, Tree.mk "b" "2" none]))).Nodup ∧
      ("b" : String) ∈ ids (Tree.mk "r" "p"
        (some [Tree.mk "a" "1" none, Tree.mk "b" "2" none])) ∧
      ("b" : String) ≠ (Tree.mk "r" "p"
        (some [Tree.mk "a" "1" none, Tree.mk "b" "2" none])).id ∧
      siblingIdx "b" (Tree.mk "r" "p"
        (some [Tree.mk "a" "1" none, Tree.mk "b" "2" none])) ≠ some 0) ∧
    reducer "y" (reducer "x" ⟨"0.1.0", Tree.mk "r" "p"
        (some [Tree.mk "a" "1" none, Tree.mk "b" "2" none])⟩ (Action.moveUp "b"))
      (Action.moveDown "b") =
      ⟨"0.1.0", Tree.mk "r" "p" (some [Tree.mk "a" "1" none, Tree.mk "b" "2" none])⟩ :=
  ⟨⟨by decide, by decide, by decide, by decide⟩,
    claim8_moveUp_moveDown_cancel "x" "y"
      ⟨"0.1.0", Tree.mk "r" "p" (some [Tree.mk "a" "1" none, Tree.mk "b" "2" none])⟩ "b"
      (by decide) (by decide) (by decide) (by decide)⟩

/-- C10: under the unique-id invariant the defensive guards in the four
structural handlers are dead: every node with a child matching the target
has a present `children` array and a successful `findIndex`; and for a
found non-root target the only no-op cases are target-is-first for MoveUp
and target-is-last for MoveDown, while AddSibling and Remove always change
the snapshot. -/
theorem claim10_guards (nid : String) (d : Data) (target : String)
    (hnd : (ids d.tree).Nodup) (hfresh : nid ∉ ids d.tree) :
    (∀ u ∈ preNodes d.tree, (∃ c ∈ u.childList, c.id = target) →
      u.children ≠ none ∧
      List.findIdx? (fun e => e.id == target) u.childList ≠ none) ∧
    (target ∈ ids d.tree → target ≠ d.tree.id →
      ∃ u n, findParent target d.tree = some u ∧
        List.findIdx? (fun e => e.id == target) u.childList = some n ∧
        (reducer nid d (Action.moveUp target) = d ↔ n = 0) ∧
        (reducer nid d (Action.moveDown target) = d ↔ n = u.childList.length - 1) ∧
        reducer nid d (Action.added target) ≠ d ∧
        reducer nid d (Action.removed target) ≠ d) := by
  constructor
  · intro u _ ⟨c, hc, hcid⟩
    refine ⟨children_ne_none_of_child hc, ?_⟩
    intro hnone
    rw [List.findIdx?_eq_none_iff] at hnone
    exact absurd (by simp [hcid] : (c.id == target) = true) (by simp [hnone c hc])
  · intro hm hr
    rcases master_moveUp d.tree target hnd hm hr with ⟨u, n, hu, hidx, hlen, hzero, hpos⟩
    rcases master_moveDown d.tree target hnd hm hr with
      ⟨u2, n2, hu2, hidx2, _, hlast2, hpos2⟩
    have huu : u2 = u := (Option.some.inj (hu.symm.trans hu2)).symm
    rw [huu] at hidx2 hlast2 hpos2
    have hnn : n2 = n := (Option.some.inj (hidx.symm.trans hidx2)).symm
    rw [hnn] at hlast2 hpos2
    have humem : u ∈ preNodes d.tree := (findParent_some_spec hu).1
    have hndu : (childIds u).Nodup :=
      childIds_nodup_of (nodup_childList (nodup_preNode hnd humem)).2
    have hself : findNode u.id d.tree = some u := findNode_self hnd humem
    refine ⟨u, n, hu, hidx, ?_, ?_, ?_, ?_⟩
    · constructor
      · intro heq
        by_contra h0
        obtain ⟨m, rfl⟩ : ∃ m, n = m + 1 := ⟨n - 1, by omega⟩
        rcases hpos m rfl with ⟨v, hv, _, _, hchild, _⟩
        have htr : applyAt (moveUpOp target) target d.tree = d.tree :=
          congrArg Data.tree heq
        rw [htr, hself] at hv
        have hvu : v = u := (Option.some.inj hv).symm
        rw [hvu] at hchild
        have : swapIds m (childIds u) ≠ childIds u := by
          apply swapIds_ne hndu
          rw [childIds, List.length_map]
          exact hlen
        exact this (hchild.symm)
      · intro h0
        simp only [reducer]
        rw [hzero h0]
    · constructor
      · intro heq
        by_contra hnot
        rcases hpos2 hnot with ⟨w, hw, _, _, hchild, _⟩
        have htr : applyAt (moveDownOp target) target d.tree = d.tree :=
          congrArg Data.tree heq
        rw [htr, hself] at hw
        have hwu : w = u := (Option.some.inj hw).symm
        rw [hwu] at hchild
        have hbound : n + 1 < (childIds u).length := by
          rw [childIds, List.length_map]
          omega
        exact (swapIds_ne hndu hbound) (hchild.symm)
      · intro hlast
        simp only [reducer]
        rw [hlast2 hlast]
    · intro heq
      rcases master_added d.tree target nid hnd hm hr hfresh with
        ⟨u3, v3, _, _, _, _, _, hperm, _⟩
      have htr : applyAt (addedOp nid target) target d.tree = d.tree :=
        congrArg Data.tree heq
      rw [htr] at hperm
      have hlen3 := hperm.length_eq
      simp at hlen3
    · intro heq
      rcases master_removed d.tree target hnd hm hr with
        ⟨u4, v4, sub, _, _, _, _, _, _, _, hperm⟩
      have htr : applyAt (removedOp target) target d.tree = d.tree :=
        congrArg Data.tree heq
      rw [htr] at hperm
      have hlen2 := hperm.length_eq
      rw [List.length_append] at hlen2
      have : (labels sub).length = 0 := by omega
      rw [labels_eq] at this
      simp at this

theorem claim10_witness :
    ((ids (Tree.mk "r" "p" (some [Tree.mk "a" "1" none, Tree.mk "b" "2" none]))).Nodup ∧
      ("n" : String) ∉ ids (Tree.mk "r" "p"
        (some [Tree.mk "a" "1" none, Tree.mk "b" "2" none]))) ∧
    (∀ u ∈ preNodes (Tree.mk "r" "p" (some [Tree.mk "a" "1" none, Tree.mk "b" "2" none])),
      (∃ c ∈ u.childList, c.id = "b") →
      u.children ≠ none ∧
      List.findIdx? (fun e => e.id == "b") u.childList ≠ none) ∧
    (("b" : String) ∈ ids (Tree.mk "r" "p"
        (some [Tree.mk "a" "1" none, Tree.mk "b" "2" none])) →
      ("b" : String) ≠ (Tree.mk "r" "p"
        (some [Tree.mk "a" "1" none, Tree.mk "b" "2" none])).id →
      ∃ u n, findParent "b" (Tree.mk "r" "p"
          (some [Tree.mk "a" "1" none, Tree.mk "b" "2" none])) = some u ∧
        List.findIdx? (fun e => e.id == "b") u.childList = some n ∧
        (reducer "n" ⟨"0.1.0", Tree.mk "r" "p"
            (some [Tree.mk "a" "1" none, Tree.mk "b" "2" none])⟩ (Action.moveUp "b") =
          ⟨"0.1.0", Tree.mk "r" "p" (some [Tree.mk "a" "1" none, Tree.mk "b" "2" none])⟩ ↔
          n = 0) ∧
        (reducer "n" ⟨"0.1.0", Tree.mk "r" "p"
            (some [Tree.mk "a" "1" none, Tree.mk "b" "2" none])⟩ (Action.moveDown "b") =
          ⟨"0.1.0", Tree.mk "r" "p" (some [Tree.mk "a" "1" none, Tree.mk "b" "2" none])⟩ ↔
          n = u.childList.length - 1) ∧
        reducer "n" ⟨"0.1.0", Tree.mk "r" "p"
          (some [Tree.mk "a" "1" none, Tree.mk "b" "2" none])⟩ (Action.added "b") ≠
          ⟨"0.1.0", Tree.mk "r" "p" (some [Tree.mk "a" "1" none, Tree.mk "b" "2" none])⟩ ∧
        reducer "n" ⟨"0.1.0", Tree.mk "r" "p"
          (some [Tree.mk "a" "1" none, Tree.mk "b" "2" none])⟩ (Action.removed "b") ≠
          ⟨"0.1.0", Tree.mk "r" "p" (some [Tree.mk "a" "1" none, Tree.mk "b" "2" none])⟩) :=
  ⟨⟨by decide, by decide⟩,
    (claim10_guards "n" ⟨"0.1.0", Tree.mk "r" "p"
      (some [Tree.mk "a" "1" none, Tree.mk "b" "2" none])⟩ "b" (by decide) (by decide)).1,
    (claim10_guards "n" ⟨"0.1.0", Tree.mk "r" "p"
      (some [Tree.mk "a" "1" none, Tree.mk "b" "2" none])⟩ "b" (by decide) (by decide)).2⟩

end Outline
